import Mathlib

/-
Shallow embedding of `translate/tools/poconflicts.py` (class
`ConflictOptionParser`), the conflict finder for Gettext PO files.

Modelling conventions:
* Python strings are `List Char` (`Str`); `str.isalnum`, `str.lower`,
  `str.strip` and friends are modelled on their ASCII behaviour through
  `Char.isAlphanum`, `Char.toLower`, `Char.isWhitespace`.
* Python dictionaries are insertion-ordered association lists
  (`List (Str × v)`): lookup finds the first occurrence of a key,
  assignment replaces the first occurrence or appends a fresh key at the
  end.  The script iterates dicts with `iteritems`; modelling that order
  as insertion order is a deterministic refinement.
* Translation units are fixed-shape records exposing exactly the fields
  and predicates the script reads (`source`, `target`, `isheader()`,
  `istranslated()`, `hasplural()`, `othercomments`).
* File system and progress-bar effects are dropped; per-file parse
  results enter `recursiveprocess` as `Except` values so that the
  try/except control flow of the ingestion loop can be modelled.
-/

abbrev Str := List Char

/-- A translation unit as accessed by poconflicts: `source`, `target`, the
`isheader()` / `istranslated()` / `hasplural()` predicates and the mutable
`othercomments` list. -/
structure TUnit where
  source : Str
  target : Str
  isheader : Bool
  istranslated : Bool
  hasplural : Bool
  othercomments : List Str
deriving DecidableEq

/-- The command line options read by the script: `--ignore-case`,
`--accelerator` and `--invert`. -/
structure Options where
  ignorecase : Bool
  accelchars : Str
  invert : Bool
deriving DecidableEq

/-- One element of a textmap value list: the tuple
`(target, unit, fullinputpath)` appended by `processfile`. -/
structure Entry where
  target : Str
  unit : TUnit
  path : Str
deriving DecidableEq

abbrev TextMap := List (Str × List Entry)

/-- Dictionary lookup `d[k]` on an association list (first occurrence). -/
def lookupA (k : Str) : List (Str × α) → Option α
  | [] => none
  | p :: rest => if p.1 = k then some p.2 else lookupA k rest

/-- Dictionary membership `k in d`. -/
def containsKey (k : Str) (m : List (Str × α)) : Bool :=
  (lookupA k m).isSome

/-- Dictionary assignment `d[k] = v`: replace the value of an existing key
in place, otherwise insert the new key at the end. -/
def setA (k : Str) (v : α) : List (Str × α) → List (Str × α)
  | [] => [(k, v)]
  | p :: rest => if p.1 = k then (k, v) :: rest else p :: setA k v rest

/-- `d.setdefault(k, []).extend(ts)` (also used for `.append`, with a
singleton `ts`): extend the list stored at `k`, creating it if absent. -/
def extendA (k : Str) (ts : List β) : List (Str × List β) → List (Str × List β)
  | [] => [(k, ts)]
  | p :: rest => if p.1 = k then (p.1, p.2 ++ ts) :: rest else p :: extendA k ts rest

/-- `d[k] = v` for a key assumed present (used for the in-place
`reducedmap[word].extend(...)` update). -/
def setValA (k : Str) (v : α) : List (Str × α) → List (Str × α)
  | [] => []
  | p :: rest => if p.1 = k then (k, v) :: rest else p :: setValA k v rest

/-- The effect of `d.pop(k)` on the dictionary: the entry keyed `k` is
removed. -/
def eraseA (k : Str) : List (Str × α) → List (Str × α)
  | [] => []
  | p :: rest => if p.1 = k then eraseA k rest else p :: eraseA k rest

/-- The keys of the association list are pairwise distinct (always true of
maps built by dictionary operations; stated as an explicit invariant). -/
def keysNodup (m : List (Str × α)) : Prop :=
  (m.map Prod.fst).Nodup

instance (m : List (Str × α)) : Decidable (keysNodup m) := by
  unfold keysNodup; exact List.nodupDecidable _

/-- Total number of entries across all values of a map; used to state that
re-clustering neither drops nor duplicates entries. -/
def totalCount (m : List (Str × List β)) : Nat :=
  (m.map (fun p => p.2.length)).sum

/-- `e` occurs in some value list of the map. -/
def memEntries (e : Entry) (m : TextMap) : Prop :=
  ∃ p, p ∈ m ∧ e ∈ p.2

/-- `string.replace(a, "")` for a single character `a`: every occurrence of
`a` is removed. -/
def removeChar (a : Char) : Str → Str
  | [] => []
  | c :: rest => if c = a then removeChar a rest else c :: removeChar a rest

/-- `string.lstrip()` (whitespace). -/
def pyLstrip (s : Str) : Str := s.dropWhile Char.isWhitespace

/-- `string.rstrip()` (whitespace). -/
def pyRstrip (s : Str) : Str := (s.reverse.dropWhile Char.isWhitespace).reverse

/-- `string.strip()` (whitespace, both ends). -/
def pyStrip (s : Str) : Str := pyRstrip (pyLstrip s)

/-- `ConflictOptionParser.clean`: lowercase when `ignorecase` is set,
remove every accelerator character, then strip surrounding whitespace. -/
def clean (opts : Options) (s : Str) : Str :=
  let s1 := if opts.ignorecase then s.map Char.toLower else s
  let s2 := opts.accelchars.foldl (fun acc a => removeChar a acc) s1
  pyStrip s2

/-- `ConflictOptionParser.processfile`: for every unit that is not a
header, is translated and has no plural, clean source and target (swapped
when `--invert` is set) and append `(target, unit, fullinputpath)` to the
textmap list keyed by the cleaned source. -/
def processfile (opts : Options) (path : Str) (units : List TUnit)
    (tm0 : TextMap) : TextMap :=
  units.foldl (fun tm u =>
    if u.isheader || !u.istranslated then tm
    else if u.hasplural then tm
    else if !opts.invert then
      extendA (clean opts u.source) [⟨clean opts u.target, u, path⟩] tm
    else
      extendA (clean opts u.target) [⟨clean opts u.source, u, path⟩] tm) tm0

/-- Ingestion over a list of already-parsed catalogs
`(fullinputpath, units)`, starting from the empty textmap. -/
def ingestAll (opts : Options) (inputs : List (Str × List TUnit)) : TextMap :=
  inputs.foldl (fun tm pi => processfile opts pi.1 pi.2 tm) []

/-- A failure raised while processing one input file: either a user
interrupt (`KeyboardInterrupt`) or any other error. -/
inductive PyErr where
  | keyboardInterrupt : PyErr
  | exception : Str → PyErr
deriving DecidableEq

/-- The warning `"Error processing: input %s" % fullinputpath` logged for a
failed file. -/
def warnMsg (path : Str) : Str :=
  ("Error processing: input ").data ++ path

/-- One iteration of the ingestion loop of `recursiveprocess`: the file
either parses to a list of units (processed into the textmap) or raises.
The `except` handler re-raises a `KeyboardInterrupt` and otherwise logs a
warning naming the file and continues. -/
def processStep (opts : Options) (acc : TextMap × List Str)
    (inp : Str × Except PyErr (List TUnit)) : Except PyErr (TextMap × List Str) :=
  match inp.2 with
  | Except.ok units => Except.ok (processfile opts inp.1 units acc.1, acc.2)
  | Except.error e =>
    match e with
    | PyErr.keyboardInterrupt => Except.error PyErr.keyboardInterrupt
    | PyErr.exception _ => Except.ok (acc.1, acc.2 ++ [warnMsg inp.1])

/-- The ingestion loop of `ConflictOptionParser.recursiveprocess` over the
discovered input files, accumulating the textmap and the warning log;
an uncaught failure aborts the loop. -/
def recursiveprocess (opts : Options)
    (inputs : List (Str × Except PyErr (List TUnit))) :
    Except PyErr (TextMap × List Str) :=
  inputs.foldlM (processStep opts) ([], [])

/-- `inputs.any`: some input file raises a user interrupt. -/
def raisesKI (inputs : List (Str × Except PyErr (List TUnit))) : Bool :=
  inputs.any (fun p =>
    match p.2 with
    | Except.error PyErr.keyboardInterrupt => true
    | _ => false)

/-- The textmap obtained from the files that parse successfully, starting
from `tm0` (specification-side description of the recovery policy). -/
def okIngestFrom (opts : Options) (tm0 : TextMap)
    (inputs : List (Str × Except PyErr (List TUnit))) : TextMap :=
  inputs.foldl (fun tm p =>
    match p.2 with
    | Except.ok us => processfile opts p.1 us tm
    | Except.error _ => tm) tm0

/-- The warnings logged for the files that fail with an ordinary error
(specification-side description of the recovery policy). -/
def warningsOf (inputs : List (Str × Except PyErr (List TUnit))) : List Str :=
  inputs.filterMap (fun p =>
    match p.2 with
    | Except.error (PyErr.exception _) => some (warnMsg p.1)
    | _ => none)

/-- `flattext[-1:].isalnum()`: the last character exists and is
alphanumeric (`""​.isalnum()` is false). -/
def lastAlnum (s : Str) : Bool :=
  match s.getLast? with
  | some c => c.isAlphanum
  | none => false

/-- The loop body of `ConflictOptionParser.flatten`: alphanumeric
characters are copied, a non-alphanumeric character appends one `joinchar`
if the text built so far ends alphanumeric. -/
def flatcore (j : Char) : Str → Str → Str
  | flattext, [] => flattext
  | flattext, c :: rest =>
    if c.isAlphanum then flatcore j (flattext ++ [c]) rest
    else if lastAlnum flattext then flatcore j (flattext ++ [j]) rest
    else flatcore j flattext rest

/-- `string.rstrip(j)` for a single character `j`. -/
def pyRstripChar (j : Char) (s : Str) : Str :=
  (s.reverse.dropWhile (fun c => decide (c = j))).reverse

/-- `ConflictOptionParser.flatten`: run the loop from the empty string and
strip trailing join characters. -/
def flatten (text : Str) (j : Char) : Str :=
  pyRstripChar j (flatcore j [] text)

/-- State-machine form of the flatten loop: the boolean argument records
whether the last emitted character was alphanumeric (used to relate the
loop to its run/separator description). -/
def flatState (j : Char) : Bool → Str → Str
  | _, [] => []
  | lastan, c :: rest =>
    if c.isAlphanum then c :: flatState j true rest
    else if lastan then j :: flatState j false rest
    else flatState j false rest

/-- The maximal alphanumeric runs of a string, in order (specification-side
description of `flatten`'s output). -/
def alnumRuns : Str → List Str
  | [] => []
  | c :: rest =>
    if c.isAlphanum then
      (c :: rest.takeWhile Char.isAlphanum) :: alnumRuns (rest.dropWhile Char.isAlphanum)
    else alnumRuns rest
termination_by s => s.length
decreasing_by
  · simp only [List.length_cons]
    have := List.Sublist.length_le (List.dropWhile_sublist (l := rest) Char.isAlphanum)
    omega
  · simp only [List.length_cons]; omega

/-- Runs separated by exactly one `j` each (specification-side). -/
def joinRuns (j : Char) : List Str → Str
  | [] => []
  | [r] => r
  | r :: r2 :: rs => r ++ j :: joinRuns j (r2 :: rs)

/-- The string contains an alphanumeric character. -/
def hasAlnum (s : Str) : Bool := s.any Char.isAlphanum

/-- No two consecutive characters of the string both equal `j`. -/
def noDouble (j : Char) : Str → Bool
  | a :: b :: rest => (!(decide (a = j) && decide (b = j))) && noDouble j (b :: rest)
  | _ => true

/-- `len(dict.fromkeys(targets))`: the number of distinct target values in
a translation list. -/
def uniqueTargets (L : List Entry) : Nat :=
  (L.map Entry.target).dedup.length

/-- The conditions under which `buildconflictmap` records an index entry:
the flattened source is longer than one character, the list holds more than
one translation, and more than one distinct target occurs in it. -/
def qualifies (s : Str) (L : List Entry) : Prop :=
  1 < (flatten s ' ').length ∧ 1 < L.length ∧ 1 < uniqueTargets L

instance (s : Str) (L : List Entry) : Decidable (qualifies s L) := by
  unfold qualifies; exact inferInstance

/-- The loop body of `ConflictOptionParser.buildconflictmap`. -/
def bcStep (cm : TextMap) (p : Str × List Entry) : TextMap :=
  let fsrc := flatten p.1 ' '
  if fsrc.length ≤ 1 then cm
  else if 1 < p.2.length ∧ 1 < uniqueTargets p.2 then setA fsrc p.2 cm
  else cm

/-- `ConflictOptionParser.buildconflictmap`: for every textmap item whose
flattened source is meaningful and whose translations conflict, assign the
translation list under the flattened source. -/
def buildconflictmap (tm : TextMap) : TextMap :=
  tm.foldl bcStep []

/-- The translation list of the last textmap item that flattens to `f` and
qualifies as a conflict (what the final dict assignment leaves behind). -/
def lastQ (f : Str) : TextMap → Option (List Entry)
  | [] => none
  | p :: rest =>
    match lastQ f rest with
    | some L => some L
    | none => if flatten p.1 ' ' = f ∧ qualifies p.1 p.2 then some p.2 else none

/-- `string.split()`: whitespace-delimited words, empty runs discarded.
The first argument accumulates the current word in reverse. -/
def pysplitAux (cur : Str) : Str → List Str
  | [] => if cur.isEmpty then [] else [cur.reverse]
  | c :: rest =>
    if c.isWhitespace then
      if cur.isEmpty then pysplitAux [] rest
      else cur.reverse :: pysplitAux [] rest
    else pysplitAux (c :: cur) rest

def pysplit (s : Str) : List Str := pysplitAux [] s

/-- One insertion step of a stable ascending sort by length. -/
def insertByLen (w : Str) : List Str → List Str
  | [] => [w]
  | x :: xs => if x.length < w.length then x :: insertByLen w xs else w :: x :: xs

/-- `words.sort(key=len)`: Python's sort is stable, so any stable
ascending sort by length computes the same list; modelled by stable
insertion sort. -/
def pysortByLen : List Str → List Str
  | [] => []
  | w :: rest => insertByLen w (pysortByLen rest)

/-- The cluster key chosen by `outputconflicts` for a conflicting source:
`words.sort(key=str_len); words[-1]` (the script assumes the word list is
nonempty; the default `[]` is never reached on conflict-map keys). -/
def clusterKey (source : Str) : Str :=
  (pysortByLen (pysplit source)).getLastD []

/-- The longest word, ties broken in favour of the word occurring last
(specification-side description of `clusterKey`). -/
def lastLongest : List Str → Str
  | [] => []
  | w :: rest =>
    if rest.all (fun x => decide (x.length < w.length)) then w else lastLongest rest

/-- The longest word, ties broken in favour of the word occurring first
(the behaviour the specification ascribes to `clusterKey`). -/
def firstLongest : List Str → Str
  | [] => []
  | w :: rest =>
    if rest.all (fun x => decide (x.length ≤ w.length)) then w else firstLongest rest

/-- The re-clustering loop of `outputconflicts`: every conflicting source's
translations are merged into the reduced map under its cluster key. -/
def reduceStep (cm : TextMap) : TextMap :=
  cm.foldl (fun rm p => extendA (clusterKey p.1) p.2 rm) []

/-- The `plurals` dictionary of `outputconflicts`: every reduced-map key
`w` such that `w + "s"` is also a key, paired with that plural key. -/
def pluralPairs (rm : TextMap) : List (Str × Str) :=
  rm.filterMap (fun p =>
    if containsKey (p.1 ++ ['s']) rm then some (p.1, p.1 ++ ['s']) else none)

/-- One step `reducedmap[word].extend(reducedmap.pop(pluralword))` of the
plural-folding loop: both lookups raise `KeyError` (here `none`) when the
key is absent. -/
def fpStep (m : TextMap) (pr : Str × Str) : Option TextMap :=
  match lookupA pr.1 m, lookupA pr.2 m with
  | some cur, some plu => some (eraseA pr.2 (setValA pr.1 (cur ++ plu) m))
  | _, _ => none

/-- The plural-folding pass of `outputconflicts`, over the pairs computed
from the keys as they existed before any merging. -/
def foldPlurals (rm : TextMap) : Option TextMap :=
  (pluralPairs rm).foldlM fpStep rm

/-- No reduced-map key starts a chain `w`, `w + "s"`, `w + "ss"` of three
simultaneously present keys (the configuration on which the folding pass
either chains or raises). -/
def noTriple (rm : TextMap) : Prop :=
  ∀ p ∈ rm, ¬(containsKey (p.1 ++ ['s']) rm = true ∧
      containsKey (p.1 ++ ['s', 's']) rm = true)

instance (rm : TextMap) : Decidable (noTriple rm) := by
  unfold noTriple; exact inferInstance

/-- The diagnostic comment `"# (poconflicts) %s\n" % filename`. -/
def mkComment (path : Str) : Str :=
  ("# (poconflicts) ").data ++ path ++ ['\n']

/-- `unit.othercomments.append("# (poconflicts) %s\n" % filename)`. -/
def addComment (u : TUnit) (path : Str) : TUnit :=
  { u with othercomments := u.othercomments ++ [mkComment path] }

/-- The output catalogs written by `outputconflicts`: one per remaining
cluster key, with file stem `flatten(key, "-")`, holding every merged unit
tagged with its origin file. -/
def outputsOf (rm : TextMap) : List (Str × List TUnit) :=
  rm.map (fun p => (flatten p.1 '-', p.2.map (fun e => addComment e.unit e.path)))

/-- Swap the source and target fields of a unit (a pre-swapped catalog). -/
def swapUnit (u : TUnit) : TUnit :=
  { u with source := u.target, target := u.source }

/-- Swap the source/target fields of the unit stored in an entry. -/
def swapEntryUnit (e : Entry) : Entry :=
  { e with unit := swapUnit e.unit }

/-- Apply `swapEntryUnit` to every entry stored in a textmap. -/
def mapUnitsSwapped (m : TextMap) : TextMap :=
  m.map (fun p => (p.1, p.2.map swapEntryUnit))

/-- Default options: no ignore-case, no accelerators, no invert. -/
def opts0 : Options := ⟨false, [], false⟩

/-! ### Association-list lemmas -/

theorem lookupA_setA (k f : Str) (v : α) (m : List (Str × α)) :
    lookupA f (setA k v m) = if k = f then some v else lookupA f m := by
  induction m with
  | nil => simp [setA, lookupA]
  | cons p rest ih =>
    by_cases hpk : p.1 = k
    · rw [show setA k v (p :: rest) = (k, v) :: rest by simp [setA, hpk]]
      by_cases hkf : k = f
      · simp [lookupA, hkf]
      · have hpf : p.1 ≠ f := by rw [hpk]; exact hkf
        simp [lookupA, hkf, hpf]
    · rw [show setA k v (p :: rest) = p :: setA k v rest by simp [setA, hpk]]
      by_cases hpf : p.1 = f
      · have hkf : k ≠ f := fun h => hpk (by rw [hpf, h])
        simp [lookupA, hpf, hkf]
      · simp [lookupA, hpf, ih]

theorem lookupA_extendA (k f : Str) (ts : List β) (m : List (Str × List β)) :
    lookupA f (extendA k ts m) =
      if k = f then some ((lookupA k m).getD [] ++ ts) else lookupA f m := by
  induction m with
  | nil => simp [extendA, lookupA]
  | cons p rest ih =>
    by_cases hpk : p.1 = k
    · rw [show extendA k ts (p :: rest) = (p.1, p.2 ++ ts) :: rest by simp [extendA, hpk]]
      by_cases hkf : k = f
      · have hpf : p.1 = f := hpk.trans hkf
        simp [lookupA, hkf, hpf, hpk]
      · have hpf : p.1 ≠ f := by rw [hpk]; exact hkf
        simp [lookupA, hkf, hpf]
    · rw [show extendA k ts (p :: rest) = p :: extendA k ts rest by simp [extendA, hpk]]
      by_cases hpf : p.1 = f
      · have hkf : k ≠ f := fun h => hpk (by rw [hpf, h])
        simp [lookupA, hpf, hkf]
      · have hlk : lookupA k (p :: rest) = lookupA k rest := by simp [lookupA, hpk]
        simp [lookupA, hpf, ih, hlk, hpk]

theorem lookupA_setValA (k f : Str) (v : α) (m : List (Str × α)) :
    lookupA f (setValA k v m) =
      if k = f then (lookupA k m).map (fun _ => v) else lookupA f m := by
  induction m with
  | nil => simp [setValA, lookupA]
  | cons p rest ih =>
    by_cases hpk : p.1 = k
    · rw [show setValA k v (p :: rest) = (k, v) :: rest by simp [setValA, hpk]]
      by_cases hkf : k = f
      · simp [lookupA, hkf, hpk]
      · have hpf : p.1 ≠ f := by rw [hpk]; exact hkf
        simp [lookupA, hkf, hpf]
    · rw [show setValA k v (p :: rest) = p :: setValA k v rest by simp [setValA, hpk]]
      by_cases hpf : p.1 = f
      · have hkf : k ≠ f := fun h => hpk (by rw [hpf, h])
        simp [lookupA, hpf, hkf]
      · have hlk : lookupA k (p :: rest) = lookupA k rest := by simp [lookupA, hpk]
        simp [lookupA, hpf, ih, hlk, hpk]

theorem lookupA_eraseA_self (k : Str) (m : List (Str × α)) :
    lookupA k (eraseA k m) = none := by
  induction m with
  | nil => simp [eraseA, lookupA]
  | cons p rest ih =>
    by_cases hpk : p.1 = k
    · simpa [eraseA, hpk] using ih
    · rw [show eraseA k (p :: rest) = p :: eraseA k rest by simp [eraseA, hpk]]
      simp [lookupA, hpk, ih]

theorem lookupA_eraseA_ne (k f : Str) (m : List (Str × α)) (h : f ≠ k) :
    lookupA f (eraseA k m) = lookupA f m := by
  induction m with
  | nil => simp [eraseA]
  | cons p rest ih =>
    by_cases hpk : p.1 = k
    · have hpf : p.1 ≠ f := by rw [hpk]; exact fun e => h e.symm
      rw [show eraseA k (p :: rest) = eraseA k rest by simp [eraseA, hpk]]
      simp [lookupA, hpf, ih]
    · rw [show eraseA k (p :: rest) = p :: eraseA k rest by simp [eraseA, hpk]]
      by_cases hpf : p.1 = f
      · simp [lookupA, hpf]
      · simp [lookupA, hpf, ih]

theorem lookupA_mem {k : Str} {v : α} {m : List (Str × α)}
    (h : lookupA k m = some v) : (k, v) ∈ m := by
  induction m with
  | nil => simp [lookupA] at h
  | cons p rest ih =>
    by_cases hpk : p.1 = k
    · simp [lookupA, hpk] at h
      have hp : p = (k, v) := by
        cases p with
        | mk a b => simp_all
      rw [← hp]
      exact List.mem_cons_self _ _
    · simp [lookupA, hpk] at h
      exact List.mem_cons_of_mem _ (ih h)

theorem containsKey_iff_mem_keys (k : Str) (m : List (Str × α)) :
    containsKey k m = true ↔ k ∈ m.map Prod.fst := by
  induction m with
  | nil => simp [containsKey, lookupA]
  | cons p rest ih =>
    by_cases hpk : p.1 = k
    · constructor
      · intro _
        rw [List.map_cons]
        exact List.mem_cons.2 (Or.inl hpk.symm)
      · intro _
        simp [containsKey, lookupA, hpk]
    · rw [List.map_cons]
      constructor
      · intro hc
        have hc2 : containsKey k rest = true := by
          simpa [containsKey, lookupA, hpk] using hc
        exact List.mem_cons_of_mem _ (ih.1 hc2)
      · intro hm
        rcases List.mem_cons.1 hm with he | hm2
        · exact absurd he.symm hpk
        · have hc2 := ih.2 hm2
          simpa [containsKey, lookupA, hpk] using hc2

theorem containsKey_of_lookupA {k : Str} {v : α} {m : List (Str × α)}
    (h : lookupA k m = some v) : containsKey k m = true := by
  simp [containsKey, h]

theorem eraseA_of_not_contains {k : Str} {m : List (Str × α)}
    (h : containsKey k m = false) : eraseA k m = m := by
  induction m with
  | nil => rfl
  | cons p rest ih =>
    simp only [containsKey, lookupA] at h
    by_cases hpk : p.1 = k
    · simp [hpk] at h
    · simp only [hpk, if_false] at h
      rw [show eraseA k (p :: rest) = p :: eraseA k rest by simp [eraseA, hpk]]
      rw [ih (by simpa [containsKey] using h)]

/-! ### `clean` is idempotent (claim C7) -/

theorem char_toNat_ofNat {n : Nat} (h : n < 55296) : (Char.ofNat n).toNat = n := by
  have hv : n.isValidChar := Or.inl h
  simp only [Char.ofNat, hv, dite_true, Char.ofNatAux, Char.toNat, UInt32.toNat,
    BitVec.toNat_ofNatLt]

theorem toLower_idem (c : Char) : Char.toLower (Char.toLower c) = Char.toLower c := by
  unfold Char.toLower
  by_cases h : c.toNat ≥ 65 ∧ c.toNat ≤ 90
  · rw [if_pos h]
    have h32 : (Char.ofNat (c.toNat + 32)).toNat = c.toNat + 32 :=
      char_toNat_ofNat (by omega)
    rw [h32]
    have hno : ¬(c.toNat + 32 ≥ 65 ∧ c.toNat + 32 ≤ 90) := by omega
    rw [if_neg hno]
  · rw [if_neg h, if_neg h]

theorem removeChar_sublist (a : Char) (l : Str) : (removeChar a l).Sublist l := by
  induction l with
  | nil => simp [removeChar]
  | cons c rest ih =>
    by_cases hca : c = a
    · rw [show removeChar a (c :: rest) = removeChar a rest by simp [removeChar, hca]]
      exact ih.cons c
    · rw [show removeChar a (c :: rest) = c :: removeChar a rest by simp [removeChar, hca]]
      exact ih.cons₂ c

theorem removeAccels_sublist (ac : Str) (l : Str) :
    (ac.foldl (fun acc a => removeChar a acc) l).Sublist l := by
  induction ac generalizing l with
  | nil => simp
  | cons a rest ih =>
    rw [List.foldl_cons]
    exact (ih (removeChar a l)).trans (removeChar_sublist a l)

theorem pyLstrip_sublist (l : Str) : (pyLstrip l).Sublist l :=
  List.dropWhile_sublist _

theorem pyRstrip_sublist (l : Str) : (pyRstrip l).Sublist l := by
  have h := List.dropWhile_sublist (l := l.reverse) Char.isWhitespace
  have h2 := h.reverse
  rwa [List.reverse_reverse] at h2

theorem pyStrip_sublist (l : Str) : (pyStrip l).Sublist l :=
  (pyRstrip_sublist (pyLstrip l)).trans (pyLstrip_sublist l)

theorem clean_sublist (opts : Options) (s : Str) :
    (clean opts s).Sublist (if opts.ignorecase then s.map Char.toLower else s) := by
  unfold clean
  exact (pyStrip_sublist _).trans (removeAccels_sublist _ _)

theorem map_toLower_fix {l : Str} (h : ∀ c ∈ l, Char.toLower c = c) :
    l.map Char.toLower = l := by
  induction l with
  | nil => rfl
  | cons c rest ih =>
    rw [List.map_cons, h c (List.mem_cons_self c rest),
      ih (fun x hx => h x (List.mem_cons_of_mem c hx))]

theorem not_mem_removeChar (a : Char) (l : Str) : a ∉ removeChar a l := by
  induction l with
  | nil => simp [removeChar]
  | cons c rest ih =>
    by_cases hca : c = a
    · rw [show removeChar a (c :: rest) = removeChar a rest by simp [removeChar, hca]]
      exact ih
    · rw [show removeChar a (c :: rest) = c :: removeChar a rest by simp [removeChar, hca]]
      intro hmem
      rcases List.mem_cons.1 hmem with he | hm
      · exact hca he.symm
      · exact ih hm

theorem not_mem_removeAccels {ac : Str} {a : Char} (ha : a ∈ ac) (l : Str) :
    a ∉ ac.foldl (fun acc x => removeChar x acc) l := by
  induction ac generalizing l with
  | nil => simp at ha
  | cons x rest ih =>
    rw [List.foldl_cons]
    rcases List.mem_cons.1 ha with he | hm
    · subst he
      intro hmem
      exact not_mem_removeChar a l ((removeAccels_sublist rest _).subset hmem)
    · exact ih hm _

theorem removeChar_eq_self {a : Char} {l : Str} (h : a ∉ l) : removeChar a l = l := by
  induction l with
  | nil => rfl
  | cons c rest ih =>
    have hca : c ≠ a := fun e => h (e ▸ List.mem_cons_self c rest)
    rw [show removeChar a (c :: rest) = c :: removeChar a rest by simp [removeChar, hca]]
    rw [ih (fun hm => h (List.mem_cons_of_mem c hm))]

theorem removeAccels_eq_self {ac l : Str} (h : ∀ a ∈ ac, a ∉ l) :
    ac.foldl (fun acc x => removeChar x acc) l = l := by
  induction ac with
  | nil => rfl
  | cons x rest ih =>
    rw [List.foldl_cons, removeChar_eq_self (h x (List.mem_cons_self x rest))]
    exact ih (fun a ha => h a (List.mem_cons_of_mem x ha))

theorem dropWhile_head_not {p : Char → Bool} {l : Str} {c : Char}
    (h : (l.dropWhile p).head? = some c) : p c = false := by
  induction l with
  | nil => simp [List.dropWhile] at h
  | cons x rest ih =>
    rw [List.dropWhile_cons] at h
    by_cases hx : p x = true
    · rw [if_pos hx] at h
      exact ih h
    · rw [if_neg hx] at h
      simp at h
      rw [← h]
      exact Bool.eq_false_iff.2 hx

theorem dropWhile_dropWhile (p : Char → Bool) (l : Str) :
    List.dropWhile p (List.dropWhile p l) = List.dropWhile p l := by
  cases hd : List.dropWhile p l with
  | nil => rfl
  | cons c rest =>
    have hc : p c = false := dropWhile_head_not (by rw [hd]; rfl)
    rw [List.dropWhile_cons, if_neg (by simp [hc])]

theorem pyRstrip_idem (l : Str) : pyRstrip (pyRstrip l) = pyRstrip l := by
  unfold pyRstrip
  rw [List.reverse_reverse, dropWhile_dropWhile]

theorem rstrip_decomp (l : Str) :
    l = pyRstrip l ++ (l.reverse.takeWhile Char.isWhitespace).reverse := by
  unfold pyRstrip
  have h := List.takeWhile_append_dropWhile Char.isWhitespace l.reverse
  calc l = l.reverse.reverse := (List.reverse_reverse l).symm
    _ = (List.takeWhile Char.isWhitespace l.reverse ++
          List.dropWhile Char.isWhitespace l.reverse).reverse := by rw [h]
    _ = _ := by rw [List.reverse_append]

theorem pyLstrip_head_not {l : Str} {c : Char} (h : (pyLstrip l).head? = some c) :
    c.isWhitespace = false := dropWhile_head_not h

theorem pyLstrip_pyRstrip_pyLstrip (l : Str) :
    pyLstrip (pyRstrip (pyLstrip l)) = pyRstrip (pyLstrip l) := by
  cases hr : pyRstrip (pyLstrip l) with
  | nil => rfl
  | cons c rest =>
    have hdec := rstrip_decomp (pyLstrip l)
    rw [hr] at hdec
    have hhead : (pyLstrip l).head? = some c := by
      rw [hdec]; rfl
    have hc : c.isWhitespace = false := pyLstrip_head_not hhead
    unfold pyLstrip
    rw [List.dropWhile_cons, if_neg (by simp [hc])]

theorem pyStrip_idem (l : Str) : pyStrip (pyStrip l) = pyStrip l := by
  unfold pyStrip
  rw [pyLstrip_pyRstrip_pyLstrip, pyRstrip_idem]

/-- Claim C7: `clean` is a pure function of the string, the ignore-case
flag and the accelerator set (it is a Lean function of exactly these), and
it is idempotent: cleaning an already-cleaned string changes nothing. -/
theorem c7_clean_idempotent (opts : Options) (s : Str) :
    clean opts (clean opts s) = clean opts s := by
  have hsub := clean_sublist opts s
  have hlower : (if opts.ignorecase then (clean opts s).map Char.toLower
      else clean opts s) = clean opts s := by
    by_cases hic : opts.ignorecase
    · rw [if_pos hic]
      apply map_toLower_fix
      intro c hc
      rw [if_pos hic] at hsub
      have hmem := hsub.subset hc
      rcases List.mem_map.1 hmem with ⟨x, _, hx⟩
      rw [← hx]
      exact toLower_idem x
    · rw [if_neg hic]
  have haccel : opts.accelchars.foldl (fun acc x => removeChar x acc) (clean opts s)
      = clean opts s := by
    apply removeAccels_eq_self
    intro a ha hmem
    have : a ∈ (if opts.ignorecase then s.map Char.toLower else s) :=
      hsub.subset hmem
    unfold clean at hmem
    exact not_mem_removeAccels ha _ ((pyStrip_sublist _).subset hmem)
  have hstrip : pyStrip (clean opts s) = clean opts s := by
    unfold clean
    exact pyStrip_idem _
  have hdef : clean opts (clean opts s) =
      pyStrip (opts.accelchars.foldl (fun acc a => removeChar a acc)
        (if opts.ignorecase then (clean opts s).map Char.toLower else clean opts s)) := rfl
  rw [hdef, hlower, haccel, hstrip]

/-! ### Per-file failure policy (claim C6) -/

theorem recursiveprocess_aux (opts : Options)
    (inputs : List (Str × Except PyErr (List TUnit))) (tm : TextMap) (ws : List Str) :
    inputs.foldlM (processStep opts) (tm, ws) =
      if raisesKI inputs then Except.error PyErr.keyboardInterrupt
      else Except.ok (okIngestFrom opts tm inputs, ws ++ warningsOf inputs) := by
  induction inputs generalizing tm ws with
  | nil =>
    simp only [raisesKI, List.any_nil, List.foldlM_nil, if_false, Bool.false_eq_true,
      okIngestFrom, warningsOf, List.foldl_nil, List.filterMap_nil, List.append_nil]
    rfl
  | cons p rest ih =>
    rw [List.foldlM_cons]
    cases hp : p.2 with
    | ok us =>
      have hstep : processStep opts (tm, ws) p =
          Except.ok (processfile opts p.1 us tm, ws) := by
        simp [processStep, hp]
      rw [hstep]
      have hki : raisesKI (p :: rest) = raisesKI rest := by
        simp [raisesKI, hp]
      have hok : okIngestFrom opts tm (p :: rest) =
          okIngestFrom opts (processfile opts p.1 us tm) rest := by
        simp [okIngestFrom, hp]
      have hw : warningsOf (p :: rest) = warningsOf rest := by
        simp [warningsOf, hp]
      rw [hki, hok, hw]
      simpa using ih (processfile opts p.1 us tm) ws
    | error e =>
      cases e with
      | keyboardInterrupt =>
        have hstep : processStep opts (tm, ws) p = Except.error PyErr.keyboardInterrupt := by
          simp [processStep, hp]
        rw [hstep]
        have hki : raisesKI (p :: rest) = true := by
          simp [raisesKI, hp]
        rw [hki]
        simp only [if_true]
        rfl
      | exception msg =>
        have hstep : processStep opts (tm, ws) p =
            Except.ok (tm, ws ++ [warnMsg p.1]) := by
          simp [processStep, hp]
        rw [hstep]
        have hki : raisesKI (p :: rest) = raisesKI rest := by
          simp [raisesKI, hp]
        have hok : okIngestFrom opts tm (p :: rest) = okIngestFrom opts tm rest := by
          simp [okIngestFrom, hp]
        have hw : warningsOf (p :: rest) = warnMsg p.1 :: warningsOf rest := by
          simp [warningsOf, hp]
        rw [hki, hok, hw]
        have := ih tm (ws ++ [warnMsg p.1])
        simpa [List.append_assoc] using this

/-- Claim C6: during ingestion, a file whose processing raises an ordinary
failure contributes a warning naming that file and is skipped, the loop
continuing over the remaining files (its units are absent from the
resulting textmap); a user interrupt is re-raised and aborts the whole
run.  The run is characterized exactly: it raises `keyboardInterrupt` iff
some file raises it, and otherwise returns the textmap built from the
successfully parsed files together with one warning per failed file. -/
theorem c6_per_file_failure_policy (opts : Options)
    (inputs : List (Str × Except PyErr (List TUnit))) :
    recursiveprocess opts inputs =
      if raisesKI inputs then Except.error PyErr.keyboardInterrupt
      else Except.ok (okIngestFrom opts [] inputs, warningsOf inputs) := by
  have h := recursiveprocess_aux opts inputs [] []
  simpa [recursiveprocess] using h

/-! ### Flattened-key collision (claim C10) -/

/-- Claim C10: two distinct cleaned source strings (`"a.b"` and `"a b"`),
each independently qualifying as a conflict, flatten to the same string
`"a b"`; `buildconflictmap` stores only the translation list of the index
key processed last under that flattened key, and the earlier key's entries
appear in no conflict-map value and in no output catalog. -/
theorem c10_flatten_key_collision :
    (let u1 : TUnit := ⟨("a.b").data, ("t1").data, false, true, false, []⟩
     let u2 : TUnit := ⟨("a.b").data, ("t2").data, false, true, false, []⟩
     let u3 : TUnit := ⟨("a b").data, ("t3").data, false, true, false, []⟩
     let u4 : TUnit := ⟨("a b").data, ("t4").data, false, true, false, []⟩
     let e1 : Entry := ⟨("t1").data, u1, ("f").data⟩
     let e2 : Entry := ⟨("t2").data, u2, ("f").data⟩
     let e3 : Entry := ⟨("t3").data, u3, ("f").data⟩
     let e4 : Entry := ⟨("t4").data, u4, ("f").data⟩
     let tm : TextMap := [(("a.b").data, [e1, e2]), (("a b").data, [e3, e4])]
     ("a.b").data ≠ ("a b").data ∧
     flatten ("a.b").data ' ' = flatten ("a b").data ' ' ∧
     qualifies ("a.b").data [e1, e2] ∧
     qualifies ("a b").data [e3, e4] ∧
     ingestAll opts0 [(("f").data, [u1, u2, u3, u4])] = tm ∧
     buildconflictmap tm = [(("a b").data, [e3, e4])] ∧
     (∀ p ∈ buildconflictmap tm, e1 ∉ p.2 ∧ e2 ∉ p.2) ∧
     foldPlurals (reduceStep (buildconflictmap tm)) = some [(("b").data, [e3, e4])] ∧
     (∀ q ∈ outputsOf [(("b").data, [e3, e4])], ∀ x ∈ q.2,
        x ≠ addComment u1 ("f").data ∧ x ≠ addComment u2 ("f").data)) := by
  decide

/-! ### Invert mode (claim C8) -/

theorem mapUnitsSwapped_extendA (k : Str) (ts : List Entry) (tm : TextMap) :
    mapUnitsSwapped (extendA k ts tm) =
      extendA k (ts.map swapEntryUnit) (mapUnitsSwapped tm) := by
  induction tm with
  | nil => simp [extendA, mapUnitsSwapped]
  | cons p rest ih =>
    by_cases hpk : p.1 = k
    · rw [show extendA k ts (p :: rest) = (p.1, p.2 ++ ts) :: rest by simp [extendA, hpk]]
      rw [show mapUnitsSwapped ((p.1, p.2 ++ ts) :: rest) =
        (p.1, (p.2 ++ ts).map swapEntryUnit) :: mapUnitsSwapped rest by simp [mapUnitsSwapped]]
      rw [show mapUnitsSwapped (p :: rest) =
        (p.1, p.2.map swapEntryUnit) :: mapUnitsSwapped rest by simp [mapUnitsSwapped]]
      rw [show extendA k (ts.map swapEntryUnit)
          ((p.1, p.2.map swapEntryUnit) :: mapUnitsSwapped rest) =
        (p.1, p.2.map swapEntryUnit ++ ts.map swapEntryUnit) :: mapUnitsSwapped rest by
          simp [extendA, hpk]]
      rw [List.map_append]
    · rw [show extendA k ts (p :: rest) = p :: extendA k ts rest by simp [extendA, hpk]]
      rw [show mapUnitsSwapped (p :: extendA k ts rest) =
        (p.1, p.2.map swapEntryUnit) :: mapUnitsSwapped (extendA k ts rest) by
          simp [mapUnitsSwapped]]
      rw [show mapUnitsSwapped (p :: rest) =
        (p.1, p.2.map swapEntryUnit) :: mapUnitsSwapped rest by simp [mapUnitsSwapped]]
      rw [show extendA k (ts.map swapEntryUnit)
          ((p.1, p.2.map swapEntryUnit) :: mapUnitsSwapped rest) =
        (p.1, p.2.map swapEntryUnit) :: extendA k (ts.map swapEntryUnit) (mapUnitsSwapped rest) by
          simp [extendA, hpk]]
      rw [ih]

theorem swapUnit_swapUnit (u : TUnit) : swapUnit (swapUnit u) = u := rfl

theorem processfile_invert_swap (opts : Options) (path : Str) (units : List TUnit) :
    ∀ tm : TextMap,
      processfile { opts with invert := true } path units (mapUnitsSwapped tm) =
        mapUnitsSwapped (processfile { opts with invert := false } path
          (units.map swapUnit) tm) := by
  induction units with
  | nil => intro tm; rfl
  | cons u us ih =>
    intro tm
    unfold processfile at ih ⊢
    rw [List.map_cons, List.foldl_cons, List.foldl_cons]
    by_cases h1 : (u.isheader || !u.istranslated) = true
    · rw [if_pos h1, if_pos (show ((swapUnit u).isheader || !(swapUnit u).istranslated) = true from h1)]
      exact ih tm
    · rw [if_neg h1, if_neg (show ¬((swapUnit u).isheader || !(swapUnit u).istranslated) = true from h1)]
      by_cases h2 : u.hasplural = true
      · rw [if_pos h2, if_pos (show (swapUnit u).hasplural = true from h2)]
        exact ih tm
      · rw [if_neg h2, if_neg (show ¬(swapUnit u).hasplural = true from h2)]
        rw [if_neg (show ¬(!({ opts with invert := true } : Options).invert) = true by simp)]
        rw [if_pos (show (!({ opts with invert := false } : Options).invert) = true by simp)]
        have hclean : clean { opts with invert := true } = clean opts := rfl
        have hclean2 : clean { opts with invert := false } = clean opts := rfl
        rw [hclean, hclean2]
        have hsrc : (swapUnit u).source = u.target := rfl
        have htgt : (swapUnit u).target = u.source := rfl
        rw [hsrc, htgt]
        have hstep : extendA (clean opts u.target)
            [⟨clean opts u.source, u, path⟩] (mapUnitsSwapped tm) =
          mapUnitsSwapped (extendA (clean opts u.target)
            [⟨clean opts u.source, swapUnit u, path⟩] tm) := by
          rw [mapUnitsSwapped_extendA]
          rfl
        rw [hstep]
        exact ih (extendA (clean opts u.target) [⟨clean opts u.source, swapUnit u, path⟩] tm)

/-- Claim C8 counterexample: with one translated unit (source `"a"`,
target `"b"`), the index built in invert mode differs from the index the
non-inverted algorithm builds on the pre-swapped catalog — the stored unit
objects have their source/target fields swapped between the two runs — so
the two runs do not build exactly the same index. -/
theorem c8_counterexample :
    processfile { opts0 with invert := true } ("p").data
        [⟨("a").data, ("b").data, false, true, false, []⟩] [] ≠
      processfile { opts0 with invert := false } ("p").data
        [swapUnit ⟨("a").data, ("b").data, false, true, false, []⟩] [] := by
  decide

/-- Claim C8 (amended): ingestion with the invert flag set builds the same
index as the non-inverted algorithm run on the pre-swapped catalog, up to
swapping the source/target fields of the units stored inside the entries:
the keys, the cleaned-target components and the origin paths coincide, and
the stored units are the swapped counterparts (`mapUnitsSwapped`). -/
theorem c8_amended_invert_equivalence (opts : Options) (path : Str) (units : List TUnit) :
    processfile { opts with invert := true } path units [] =
      mapUnitsSwapped (processfile { opts with invert := false } path
        (units.map swapUnit) []) :=
  processfile_invert_swap opts path units []

/-! ### Cluster-key selection (claim C2) -/

theorem mem_insertByLen {x w : Str} {l : List Str} :
    x ∈ insertByLen w l ↔ x = w ∨ x ∈ l := by
  induction l with
  | nil => simp [insertByLen]
  | cons y ys ih =>
    by_cases hy : y.length < w.length
    · rw [show insertByLen w (y :: ys) = y :: insertByLen w ys by simp [insertByLen, hy]]
      simp only [List.mem_cons, ih]
      tauto
    · rw [show insertByLen w (y :: ys) = w :: y :: ys by simp [insertByLen, hy]]
      simp only [List.mem_cons]

theorem mem_pysortByLen {x : Str} {l : List Str} :
    x ∈ pysortByLen l ↔ x ∈ l := by
  induction l with
  | nil => simp [pysortByLen]
  | cons w rest ih =>
    rw [show pysortByLen (w :: rest) = insertByLen w (pysortByLen rest) from rfl]
    rw [mem_insertByLen]
    simp [ih]

theorem pysortByLen_all (f : Str → Bool) (l : List Str) :
    (pysortByLen l).all f = l.all f := by
  by_cases hb : l.all f = true
  · rw [hb, List.all_eq_true]
    intro x hx
    exact List.all_eq_true.1 hb x (mem_pysortByLen.1 hx)
  · have hs : ¬(pysortByLen l).all f = true := fun hc =>
      hb (List.all_eq_true.2 fun x hx =>
        List.all_eq_true.1 hc x (mem_pysortByLen.2 hx))
    rw [Bool.not_eq_true] at hs hb
    rw [hs, hb]

theorem getLastD_insertByLen (w : Str) (l : List Str) :
    ∀ d : Str, (insertByLen w l).getLastD d =
      if l.all (fun x => decide (x.length < w.length)) then w else l.getLastD d := by
  induction l with
  | nil => intro d; simp [insertByLen]
  | cons x xs ih =>
    intro d
    by_cases hx : x.length < w.length
    · rw [show insertByLen w (x :: xs) = x :: insertByLen w xs by simp [insertByLen, hx]]
      rw [List.getLastD_cons, ih x]
      have hall : (x :: xs).all (fun y => decide (y.length < w.length)) =
          xs.all (fun y => decide (y.length < w.length)) := by
        simp [hx]
      rw [hall, List.getLastD_cons]
    · rw [show insertByLen w (x :: xs) = w :: x :: xs by simp [insertByLen, hx]]
      have hall : (x :: xs).all (fun y => decide (y.length < w.length)) = false := by
        simp
        intro hcontra
        exact absurd hcontra hx
      rw [hall, if_neg (by simp)]
      simp [List.getLastD_cons]

theorem sort_getLastD_eq_lastLongest :
    ∀ (ws : List Str), ws ≠ [] → ∀ d : Str,
      (pysortByLen ws).getLastD d = lastLongest ws := by
  intro ws
  induction ws with
  | nil => intro h; exact absurd rfl h
  | cons w rest ih =>
    intro _ d
    rw [show pysortByLen (w :: rest) = insertByLen w (pysortByLen rest) from rfl]
    rw [getLastD_insertByLen, pysortByLen_all]
    by_cases hall : rest.all (fun x => decide (x.length < w.length)) = true
    · rw [if_pos hall]
      rw [show lastLongest (w :: rest) = w by simp [lastLongest, hall]]
    · rw [Bool.not_eq_true] at hall
      rw [hall, if_neg (by simp)]
      rw [show lastLongest (w :: rest) = lastLongest rest by simp [lastLongest, hall]]
      have hrest : rest ≠ [] := by
        intro he
        rw [he] at hall
        simp at hall
      exact ih hrest d

theorem lastLongest_mem : ∀ {ws : List Str}, ws ≠ [] → lastLongest ws ∈ ws := by
  intro ws
  induction ws with
  | nil => intro h; exact absurd rfl h
  | cons w rest ih =>
    intro _
    by_cases hall : rest.all (fun x => decide (x.length < w.length)) = true
    · rw [show lastLongest (w :: rest) = w by simp [lastLongest, hall]]
      exact List.mem_cons_self _ _
    · rw [Bool.not_eq_true] at hall
      rw [show lastLongest (w :: rest) = lastLongest rest by simp [lastLongest, hall]]
      have hrest : rest ≠ [] := by
        intro he
        rw [he] at hall
        simp at hall
      exact List.mem_cons_of_mem _ (ih hrest)

theorem lastLongest_maximal :
    ∀ {ws : List Str}, ∀ x ∈ ws, x.length ≤ (lastLongest ws).length := by
  intro ws
  induction ws with
  | nil => intro x hx; simp at hx
  | cons w rest ih =>
    intro x hx
    by_cases hall : rest.all (fun y => decide (y.length < w.length)) = true
    · rw [show lastLongest (w :: rest) = w by simp [lastLongest, hall]]
      rcases List.mem_cons.1 hx with he | hm
      · rw [he]
      · have := List.all_eq_true.1 hall x hm
        simp at this
        omega
    · rw [Bool.not_eq_true] at hall
      rw [show lastLongest (w :: rest) = lastLongest rest by simp [lastLongest, hall]]
      rcases List.mem_cons.1 hx with he | hm
      · rw [List.all_eq_false] at hall
        rcases hall with ⟨y, hy, hylen⟩
        simp at hylen
        have hyle := ih y hy
        rw [he]
        omega
      · exact ih x hm

/-- Claim C2 counterexample: for the conflicting source `"ab cd"` the
re-clustering step picks `"cd"`, not the first of the equally long words
(`"ab"`); ties are not broken in favour of the word encountered first. -/
theorem c2_counterexample :
    clusterKey ("ab cd").data = ("cd").data ∧
    firstLongest (pysplit ("ab cd").data) = ("ab").data ∧
    clusterKey ("ab cd").data ≠ firstLongest (pysplit ("ab cd").data) := by
  decide

/-- Claim C2 (amended): for every conflicting source with a nonempty word
list, the cluster key is one of its whitespace-delimited words, has
maximal length among them, and ties among equal-length words are broken in
favour of the word encountered last in left-to-right order. -/
theorem c2_amended_cluster_key (source : Str) (h : pysplit source ≠ []) :
    clusterKey source ∈ pysplit source ∧
    (∀ w ∈ pysplit source, w.length ≤ (clusterKey source).length) ∧
    clusterKey source = lastLongest (pysplit source) := by
  have hmain := sort_getLastD_eq_lastLongest (pysplit source) h []
  unfold clusterKey
  rw [hmain]
  exact ⟨lastLongest_mem h, fun w hw => lastLongest_maximal w hw, rfl⟩

/-- Witness for the amended claim C2 at the concrete source `"ab cd"`. -/
theorem c2_amended_cluster_key_witness :
    pysplit ("ab cd").data ≠ [] ∧
    (clusterKey ("ab cd").data ∈ pysplit ("ab cd").data ∧
     (∀ w ∈ pysplit ("ab cd").data, w.length ≤ (clusterKey ("ab cd").data).length) ∧
     clusterKey ("ab cd").data = lastLongest (pysplit ("ab cd").data)) :=
  ⟨by decide, c2_amended_cluster_key ("ab cd").data (by decide)⟩

/-! ### Plural folding (claims C9 and C3) -/

theorem containsKey_of_mem {p : Str × α} {m : List (Str × α)} (hp : p ∈ m) :
    containsKey p.1 m = true :=
  (containsKey_iff_mem_keys _ _).2 (List.mem_map_of_mem Prod.fst hp)

theorem mem_of_containsKey {k : Str} {m : List (Str × α)}
    (h : containsKey k m = true) : ∃ v, (k, v) ∈ m := by
  unfold containsKey at h
  rcases Option.isSome_iff_exists.1 h with ⟨v, hv⟩
  exact ⟨v, lookupA_mem hv⟩

/-- Claim C9: solves one folding step for the pair `("file", "files")`. -/
theorem c9_plural_folding_file_files (rm : TextMap) (L1 L2 : List Entry)
    (hp : pluralPairs rm = [(("file").data, ("files").data)])
    (h1 : lookupA ("file").data rm = some L1)
    (h2 : lookupA ("files").data rm = some L2) :
    ∃ rm', foldPlurals rm = some rm' ∧
      lookupA ("file").data rm' = some (L1 ++ L2) ∧
      lookupA ("files").data rm' = none ∧
      ∀ k : Str, k ≠ ("file").data → k ≠ ("files").data →
        lookupA k rm' = lookupA k rm := by
  refine ⟨eraseA ("files").data (setValA ("file").data (L1 ++ L2) rm), ?_, ?_, ?_, ?_⟩
  · unfold foldPlurals
    rw [hp, List.foldlM_cons]
    have hstep : fpStep rm (("file").data, ("files").data) =
        some (eraseA ("files").data (setValA ("file").data (L1 ++ L2) rm)) := by
      simp [fpStep, h1, h2]
    rw [hstep]
    rfl
  · have hne : ("file").data ≠ ("files").data := by decide
    rw [lookupA_eraseA_ne _ _ _ hne, lookupA_setValA, if_pos rfl, h1]
    rfl
  · exact lookupA_eraseA_self _ _
  · intro k hk1 hk2
    rw [lookupA_eraseA_ne _ _ _ hk2, lookupA_setValA,
      if_neg (fun e => hk1 e.symm)]

/-- Witness for claim C9 at a concrete two-key reduced map. -/
theorem c9_plural_folding_file_files_witness :
    (let u : TUnit := ⟨("s").data, ("x").data, false, true, false, []⟩
     let e1 : Entry := ⟨("x").data, u, ("f").data⟩
     let e2 : Entry := ⟨("y").data, u, ("f").data⟩
     let rm : TextMap := [(("file").data, [e1]), (("files").data, [e2])]
     pluralPairs rm = [(("file").data, ("files").data)] ∧
     lookupA ("file").data rm = some [e1] ∧
     lookupA ("files").data rm = some [e2] ∧
     ∃ rm', foldPlurals rm = some rm' ∧
       lookupA ("file").data rm' = some ([e1] ++ [e2]) ∧
       lookupA ("files").data rm' = none ∧
       ∀ k : Str, k ≠ ("file").data → k ≠ ("files").data →
         lookupA k rm' = lookupA k rm) :=
  ⟨by decide, by decide, by decide,
    c9_plural_folding_file_files _ [_] [_] (by decide) (by decide) (by decide)⟩

theorem fpAux :
    ∀ (ps : List (Str × Str)) (m : TextMap),
      (∀ pr ∈ ps, (lookupA pr.1 m).isSome = true ∧ (lookupA pr.2 m).isSome = true) →
      (∀ pr ∈ ps, pr.1 ≠ pr.2) →
      List.Pairwise (fun p q => p.1 ≠ q.1 ∧ p.1 ≠ q.2 ∧ p.2 ≠ q.1 ∧ p.2 ≠ q.2) ps →
      ∃ m', ps.foldlM fpStep m = some m' ∧
        (∀ pr ∈ ps, ∀ Lw Ls, lookupA pr.1 m = some Lw → lookupA pr.2 m = some Ls →
          lookupA pr.1 m' = some (Lw ++ Ls) ∧ lookupA pr.2 m' = none) ∧
        (∀ k : Str, (∀ pr ∈ ps, k ≠ pr.1 ∧ k ≠ pr.2) → lookupA k m' = lookupA k m) := by
  intro ps
  induction ps with
  | nil =>
    intro m _ _ _
    exact ⟨m, rfl, by simp, fun k _ => rfl⟩
  | cons pr rest ih =>
    intro m hsome hne hpw
    obtain ⟨Lw, hLw⟩ := Option.isSome_iff_exists.1 (hsome pr (List.mem_cons_self pr rest)).1
    obtain ⟨Ls, hLs⟩ := Option.isSome_iff_exists.1 (hsome pr (List.mem_cons_self pr rest)).2
    have hstep : fpStep m pr = some (eraseA pr.2 (setValA pr.1 (Lw ++ Ls) m)) := by
      simp [fpStep, hLw, hLs]
    have hprne : pr.1 ≠ pr.2 := hne pr (List.mem_cons_self pr rest)
    have hhead := (List.pairwise_cons.1 hpw).1
    have htail := (List.pairwise_cons.1 hpw).2
    have hm1_other : ∀ k : Str, k ≠ pr.1 → k ≠ pr.2 →
        lookupA k (eraseA pr.2 (setValA pr.1 (Lw ++ Ls) m)) = lookupA k m := by
      intro k h1 h2
      rw [lookupA_eraseA_ne _ _ _ h2, lookupA_setValA, if_neg (fun e => h1 e.symm)]
    have hm1_w : lookupA pr.1 (eraseA pr.2 (setValA pr.1 (Lw ++ Ls) m)) =
        some (Lw ++ Ls) := by
      rw [lookupA_eraseA_ne _ _ _ hprne, lookupA_setValA, if_pos rfl, hLw]
      rfl
    have hm1_s : lookupA pr.2 (eraseA pr.2 (setValA pr.1 (Lw ++ Ls) m)) = none :=
      lookupA_eraseA_self _ _
    have hsome1 : ∀ q ∈ rest,
        (lookupA q.1 (eraseA pr.2 (setValA pr.1 (Lw ++ Ls) m))).isSome = true ∧
        (lookupA q.2 (eraseA pr.2 (setValA pr.1 (Lw ++ Ls) m))).isSome = true := by
      intro q hq
      have hR := hhead q hq
      rw [hm1_other q.1 (Ne.symm hR.1) (Ne.symm hR.2.2.1),
        hm1_other q.2 (Ne.symm hR.2.1) (Ne.symm hR.2.2.2)]
      exact hsome q (List.mem_cons_of_mem _ hq)
    obtain ⟨m', hfold, hmerge, huntouched⟩ :=
      ih (eraseA pr.2 (setValA pr.1 (Lw ++ Ls) m)) hsome1
        (fun q hq => hne q (List.mem_cons_of_mem _ hq)) htail
    refine ⟨m', ?_, ?_, ?_⟩
    · rw [List.foldlM_cons, hstep]
      exact hfold
    · intro q hq Lw' Ls' hLw' hLs'
      rcases List.mem_cons.1 hq with he | hm
      · subst he
        rw [hLw] at hLw'
        rw [hLs] at hLs'
        have e1 : Lw' = Lw := (Option.some_inj.1 hLw').symm
        have e2 : Ls' = Ls := (Option.some_inj.1 hLs').symm
        subst e1
        subst e2
        constructor
        · rw [huntouched q.1 (fun r hr => ⟨(hhead r hr).1, (hhead r hr).2.1⟩)]
          exact hm1_w
        · rw [huntouched q.2 (fun r hr => ⟨(hhead r hr).2.2.1, (hhead r hr).2.2.2⟩)]
          exact hm1_s
      · have hR := hhead q hm
        have hq1 := hm1_other q.1 (Ne.symm hR.1) (Ne.symm hR.2.2.1)
        have hq2 := hm1_other q.2 (Ne.symm hR.2.1) (Ne.symm hR.2.2.2)
        exact hmerge q hm Lw' Ls' (by rw [hq1]; exact hLw') (by rw [hq2]; exact hLs')
    · intro k hk
      rw [huntouched k (fun r hr => hk r (List.mem_cons_of_mem _ hr))]
      exact hm1_other k (hk pr (List.mem_cons_self pr rest)).1
        (hk pr (List.mem_cons_self pr rest)).2

theorem pluralPairs_spec {rm : TextMap} {pr : Str × Str} (h : pr ∈ pluralPairs rm) :
    pr.2 = pr.1 ++ ['s'] ∧ containsKey pr.1 rm = true ∧ containsKey pr.2 rm = true := by
  unfold pluralPairs at h
  rcases List.mem_filterMap.1 h with ⟨p, hp, hf⟩
  by_cases hc : containsKey (p.1 ++ ['s']) rm = true
  · rw [if_pos hc] at hf
    have hpr : pr = (p.1, p.1 ++ ['s']) := (Option.some_inj.1 hf).symm
    have h1 : pr.1 = p.1 := by rw [hpr]
    have h2 : pr.2 = p.1 ++ ['s'] := by rw [hpr]
    refine ⟨by rw [h1, h2], ?_, ?_⟩
    · rw [h1]; exact containsKey_of_mem hp
    · rw [h2]; exact hc
  · rw [if_neg hc] at hf
    exact absurd hf (by simp)

theorem filterMap_keyed_fst_sublist (l : List (Str × β)) (g : Str × β → Option (Str × γ))
    (hg : ∀ p q, g p = some q → q.1 = p.1) :
    ((l.filterMap g).map Prod.fst).Sublist (l.map Prod.fst) := by
  induction l with
  | nil => simp
  | cons p rest ih =>
    rw [List.filterMap_cons]
    cases hgp : g p with
    | none =>
      rw [List.map_cons]
      exact ih.cons p.1
    | some q =>
      rw [List.map_cons, List.map_cons, hg p q hgp]
      exact ih.cons₂ p.1

theorem pluralPairs_fst_sublist (rm : TextMap) :
    ((pluralPairs rm).map Prod.fst).Sublist (rm.map Prod.fst) := by
  unfold pluralPairs
  apply filterMap_keyed_fst_sublist
  intro p q hg
  by_cases hc : containsKey (p.1 ++ ['s']) rm = true
  · rw [if_pos hc] at hg
    rw [← Option.some_inj.1 hg]
  · rw [if_neg hc] at hg
    exact absurd hg (by simp)

theorem pluralPairs_pairwise (rm : TextMap) (hnd : keysNodup rm) (hnt : noTriple rm) :
    List.Pairwise (fun p q : Str × Str =>
      p.1 ≠ q.1 ∧ p.1 ≠ q.2 ∧ p.2 ≠ q.1 ∧ p.2 ≠ q.2) (pluralPairs rm) := by
  have hnodup : ((pluralPairs rm).map Prod.fst).Nodup :=
    (pluralPairs_fst_sublist rm).nodup hnd
  have hpw1 : List.Pairwise (fun p q : Str × Str => p.1 ≠ q.1) (pluralPairs rm) :=
    List.pairwise_map.1 hnodup
  refine hpw1.imp_of_mem ?_
  intro p q hp hq hne
  have hps := pluralPairs_spec hp
  have hqs := pluralPairs_spec hq
  refine ⟨hne, ?_, ?_, ?_⟩
  · intro he
    obtain ⟨v, hv⟩ := mem_of_containsKey hqs.2.1
    apply hnt (q.1, v) hv
    constructor
    · rw [show ((q.1, v) : Str × List Entry).1 ++ ['s'] = q.2 from hqs.1.symm]
      exact hqs.2.2
    · have hssx : ((q.1, v) : Str × List Entry).1 ++ ['s', 's'] = p.2 := by
        rw [show (['s', 's'] : Str) = ['s'] ++ ['s'] from rfl, ← List.append_assoc,
          show (q.1 : Str) ++ ['s'] = q.2 from hqs.1.symm, ← he]
        exact hps.1.symm
      rw [hssx]
      exact hps.2.2
  · intro he
    obtain ⟨v, hv⟩ := mem_of_containsKey hps.2.1
    apply hnt (p.1, v) hv
    constructor
    · rw [show ((p.1, v) : Str × List Entry).1 ++ ['s'] = p.2 from hps.1.symm]
      exact hps.2.2
    · have hssx : ((p.1, v) : Str × List Entry).1 ++ ['s', 's'] = q.2 := by
        rw [show (['s', 's'] : Str) = ['s'] ++ ['s'] from rfl, ← List.append_assoc,
          show (p.1 : Str) ++ ['s'] = p.2 from hps.1.symm, he]
        exact hqs.1.symm
      rw [hssx]
      exact hqs.2.2
  · intro he
    apply hne
    have h1 : p.1 ++ ['s'] = q.1 ++ ['s'] := by
      rw [← hps.1, ← hqs.1, he]
    exact List.append_cancel_right h1

/-- Claim C3 counterexample: with the three keys `"a"`, `"as"`, `"ass"`
simultaneously present, the folding pass does not terminate without error:
after the pair `("a", "as")` is merged the key `"as"` has been popped, so
the pair `("as", "ass")` raises a `KeyError` (modelled as `none`). -/
theorem c3_counterexample :
    (let u : TUnit := ⟨("s").data, ("x").data, false, true, false, []⟩
     let e : Entry := ⟨("x").data, u, ("f").data⟩
     ("a").data ++ ['s'] = ("as").data ∧
     ("as").data ++ ['s'] = ("ass").data ∧
     foldPlurals [(("a").data, [e]), (("as").data, [e]), (("ass").data, [e])] = none) := by
  decide

/-- Claim C3 (amended): provided no three keys `w`, `w + "s"`, `w + "ss"`
are simultaneously present (and the reduced-map keys are distinct, as
built), the folding pass terminates without error and, for every key `w`
present before the pass with `w + "s"` also a key, merges the plural list
after the singular list and removes the plural key, without chaining. -/
theorem c3_amended_plural_folding (rm : TextMap)
    (hnd : keysNodup rm) (hnt : noTriple rm) :
    ∃ rm', foldPlurals rm = some rm' ∧
      ∀ w Lw Ls, lookupA w rm = some Lw → lookupA (w ++ ['s']) rm = some Ls →
        lookupA w rm' = some (Lw ++ Ls) ∧ lookupA (w ++ ['s']) rm' = none := by
  have hsome : ∀ pr ∈ pluralPairs rm,
      (lookupA pr.1 rm).isSome = true ∧ (lookupA pr.2 rm).isSome = true := by
    intro pr h
    have hs := pluralPairs_spec h
    exact ⟨hs.2.1, hs.2.2⟩
  have hne : ∀ pr ∈ pluralPairs rm, pr.1 ≠ pr.2 := by
    intro pr h he
    have h2 := (pluralPairs_spec h).1
    rw [h2] at he
    have := congrArg List.length he
    simp at this
  obtain ⟨m', hfold, hmerge, _⟩ :=
    fpAux (pluralPairs rm) rm hsome hne (pluralPairs_pairwise rm hnd hnt)
  refine ⟨m', hfold, ?_⟩
  intro w Lw Ls hLw hLs
  have hpair : (w, w ++ ['s']) ∈ pluralPairs rm := by
    unfold pluralPairs
    apply List.mem_filterMap.2
    refine ⟨(w, Lw), lookupA_mem hLw, ?_⟩
    rw [if_pos (containsKey_of_lookupA hLs)]
  exact hmerge (w, w ++ ['s']) hpair Lw Ls hLw hLs

/-- Witness for the amended claim C3 at a concrete reduced map with the
pair `"ab"`, `"abs"` and no chain of three keys. -/
theorem c3_amended_plural_folding_witness :
    (let u : TUnit := ⟨("s").data, ("x").data, false, true, false, []⟩
     let e1 : Entry := ⟨("x").data, u, ("f").data⟩
     let e2 : Entry := ⟨("y").data, u, ("f").data⟩
     let rm : TextMap := [(("ab").data, [e1]), (("abs").data, [e2])]
     keysNodup rm ∧ noTriple rm ∧
     ∃ rm', foldPlurals rm = some rm' ∧
       ∀ w Lw Ls, lookupA w rm = some Lw → lookupA (w ++ ['s']) rm = some Ls →
         lookupA w rm' = some (Lw ++ Ls) ∧ lookupA (w ++ ['s']) rm' = none) :=
  ⟨by decide, by decide, c3_amended_plural_folding _ (by decide) (by decide)⟩

/-! ### Conflict detection (claim C1) -/

theorem bc_fold (tm : TextMap) :
    ∀ (cm : TextMap) (f : Str), lookupA f (tm.foldl bcStep cm) =
      match lastQ f tm with
      | some L => some L
      | none => lookupA f cm := by
  induction tm with
  | nil => intro cm f; rfl
  | cons p rest ih =>
    intro cm f
    rw [List.foldl_cons, ih (bcStep cm p) f]
    cases hrest : lastQ f rest with
    | some L =>
      rw [show lastQ f (p :: rest) = some L by simp [lastQ, hrest]]
    | none =>
      rw [show lastQ f (p :: rest) =
        (if flatten p.1 ' ' = f ∧ qualifies p.1 p.2 then some p.2 else none) by
          simp [lastQ, hrest]]
      unfold bcStep
      by_cases hlen : (flatten p.1 ' ').length ≤ 1
      · rw [if_pos hlen]
        have hnq : ¬(flatten p.1 ' ' = f ∧ qualifies p.1 p.2) := by
          intro hc
          have := hc.2.1
          omega
        rw [if_neg hnq]
      · rw [if_neg hlen]
        by_cases hcond : 1 < p.2.length ∧ 1 < uniqueTargets p.2
        · rw [if_pos hcond, lookupA_setA]
          have hqual : qualifies p.1 p.2 := ⟨by omega, hcond.1, hcond.2⟩
          by_cases hf : flatten p.1 ' ' = f
          · rw [if_pos hf, if_pos ⟨hf, hqual⟩]
          · rw [if_neg hf, if_neg (fun hc => hf hc.1)]
        · rw [if_neg hcond]
          have hnq : ¬(flatten p.1 ' ' = f ∧ qualifies p.1 p.2) := by
            intro hc
            exact hcond ⟨hc.2.2.1, hc.2.2.2⟩
          rw [if_neg hnq]

theorem lastQ_eq_none {tm : TextMap} {f : Str}
    (h : ∀ p ∈ tm, ¬(flatten p.1 ' ' = f ∧ qualifies p.1 p.2)) :
    lastQ f tm = none := by
  induction tm with
  | nil => rfl
  | cons p rest ih =>
    have hrest : lastQ f rest = none :=
      ih (fun q hq => h q (List.mem_cons_of_mem _ hq))
    simp [lastQ, hrest, h p (List.mem_cons_self p rest)]

theorem keysNodup_tail {p : Str × α} {rest : List (Str × α)}
    (h : keysNodup (p :: rest)) : keysNodup rest := by
  unfold keysNodup at h ⊢
  rw [List.map_cons] at h
  exact (List.nodup_cons.1 h).2

theorem keysNodup_head_not_mem {p : Str × α} {rest : List (Str × α)}
    (h : keysNodup (p :: rest)) : p.1 ∉ rest.map Prod.fst := by
  unfold keysNodup at h
  rw [List.map_cons] at h
  exact (List.nodup_cons.1 h).1

theorem lastQ_unique (tm : TextMap) (s : Str) (L : List Entry)
    (hnd : keysNodup tm) (hs : lookupA s tm = some L)
    (hcol : ∀ p ∈ tm, p.1 ≠ s → flatten p.1 ' ' ≠ flatten s ' ') :
    lastQ (flatten s ' ') tm = if qualifies s L then some L else none := by
  induction tm with
  | nil => simp [lookupA] at hs
  | cons p rest ih =>
    by_cases hps : p.1 = s
    · have hL : p.2 = L := by simpa [lookupA, hps] using hs
      have hnokey : ∀ q ∈ rest, q.1 ≠ s := by
        intro q hq he
        apply keysNodup_head_not_mem hnd
        rw [hps, ← he]
        exact List.mem_map_of_mem Prod.fst hq
      have hrestnone : lastQ (flatten s ' ') rest = none := by
        apply lastQ_eq_none
        intro q hq hc
        exact hcol q (List.mem_cons_of_mem _ hq) (hnokey q hq) hc.1
      rw [show lastQ (flatten s ' ') (p :: rest) =
        (if flatten p.1 ' ' = flatten s ' ' ∧ qualifies p.1 p.2 then some p.2 else none) by
          simp [lastQ, hrestnone]]
      rw [hps, hL]
      by_cases hq : qualifies s L
      · rw [if_pos ⟨rfl, hq⟩, if_pos hq]
      · rw [if_neg (fun hc => hq hc.2), if_neg hq]
    · have hs' : lookupA s rest = some L := by simpa [lookupA, hps] using hs
      have hih := ih (keysNodup_tail hnd) hs'
        (fun q hq => hcol q (List.mem_cons_of_mem _ hq))
      have hheadne : flatten p.1 ' ' ≠ flatten s ' ' :=
        hcol p (List.mem_cons_self p rest) hps
      by_cases hq : qualifies s L
      · rw [if_pos hq]
        rw [if_pos hq] at hih
        simp [lastQ, hih]
      · rw [if_neg hq]
        rw [if_neg hq] at hih
        simp [lastQ, hih]
        intro hc
        exact absurd hc hheadne

/-- Claim C1 counterexample: in an index holding the two distinct keys
`"a.b"` and `"a b"` (both qualifying as conflicts, both flattening to
`"a b"`), the conflict map does not map `flatten("a.b", " ")` to the
translation list of `"a.b"` even though all three conditions hold for it,
so the claimed equivalence fails as stated. -/
theorem c1_counterexample :
    (let u1 : TUnit := ⟨("a.b").data, ("t1").data, false, true, false, []⟩
     let u2 : TUnit := ⟨("a.b").data, ("t2").data, false, true, false, []⟩
     let u3 : TUnit := ⟨("a b").data, ("t3").data, false, true, false, []⟩
     let u4 : TUnit := ⟨("a b").data, ("t4").data, false, true, false, []⟩
     let e1 : Entry := ⟨("t1").data, u1, ("f").data⟩
     let e2 : Entry := ⟨("t2").data, u2, ("f").data⟩
     let e3 : Entry := ⟨("t3").data, u3, ("f").data⟩
     let e4 : Entry := ⟨("t4").data, u4, ("f").data⟩
     let tm : TextMap := [(("a.b").data, [e1, e2]), (("a b").data, [e3, e4])]
     keysNodup tm ∧
     lookupA ("a.b").data tm = some [e1, e2] ∧
     (1 < (flatten ("a.b").data ' ').length ∧ 1 < ([e1, e2] : List Entry).length ∧
       1 < uniqueTargets [e1, e2]) ∧
     lookupA (flatten ("a.b").data ' ') (buildconflictmap tm) ≠ some [e1, e2]) := by
  decide

/-- Claim C1 (amended): for every key `s` of the index with translation
list `L`, provided no other index key flattens to the same string as `s`,
the conflict map maps `flatten(s, " ")` to `L` iff the flattened source is
longer than one character, `L` has more than one entry and `L` holds more
than one distinct target. -/
theorem c1_amended_conflict_characterization (tm : TextMap) (s : Str) (L : List Entry)
    (hnd : keysNodup tm) (hs : lookupA s tm = some L)
    (hcol : ∀ p ∈ tm, p.1 ≠ s → flatten p.1 ' ' ≠ flatten s ' ') :
    lookupA (flatten s ' ') (buildconflictmap tm) = some L ↔
      (1 < (flatten s ' ').length ∧ 1 < L.length ∧ 1 < uniqueTargets L) := by
  unfold buildconflictmap
  rw [bc_fold tm [] (flatten s ' '), lastQ_unique tm s L hnd hs hcol]
  by_cases hq : qualifies s L
  · rw [if_pos hq]
    exact iff_of_true rfl hq
  · rw [if_neg hq]
    constructor
    · intro h
      exact absurd h (by simp [lookupA])
    · intro hconj
      exact absurd hconj hq

/-- Witness for the amended claim C1 at a concrete one-key index. -/
theorem c1_amended_conflict_characterization_witness :
    (let u1 : TUnit := ⟨("ab").data, ("x").data, false, true, false, []⟩
     let u2 : TUnit := ⟨("ab").data, ("y").data, false, true, false, []⟩
     let e1 : Entry := ⟨("x").data, u1, ("f").data⟩
     let e2 : Entry := ⟨("y").data, u2, ("f").data⟩
     let tm : TextMap := [(("ab").data, [e1, e2])]
     keysNodup tm ∧
     lookupA ("ab").data tm = some [e1, e2] ∧
     (∀ p ∈ tm, p.1 ≠ ("ab").data → flatten p.1 ' ' ≠ flatten ("ab").data ' ') ∧
     (lookupA (flatten ("ab").data ' ') (buildconflictmap tm) = some [e1, e2] ↔
       (1 < (flatten ("ab").data ' ').length ∧ 1 < ([e1, e2] : List Entry).length ∧
         1 < uniqueTargets [e1, e2]))) :=
  ⟨by decide, by decide, by decide,
    c1_amended_conflict_characterization _ _ _ (by decide) (by decide) (by decide)⟩

/-! ### Flatten shape (claim C4) -/

theorem lastAlnum_concat (l : Str) (c : Char) :
    lastAlnum (l ++ [c]) = c.isAlphanum := by
  unfold lastAlnum
  rw [List.getLast?_concat]

theorem flatcore_eq_flatState {j : Char} (hj : j.isAlphanum = false) :
    ∀ (s acc : Str), flatcore j acc s = acc ++ flatState j (lastAlnum acc) s := by
  intro s
  induction s with
  | nil => intro acc; simp [flatcore, flatState]
  | cons c rest ih =>
    intro acc
    by_cases hc : c.isAlphanum = true
    · rw [show flatcore j acc (c :: rest) = flatcore j (acc ++ [c]) rest by
        simp [flatcore, hc]]
      rw [ih (acc ++ [c]), lastAlnum_concat, hc]
      rw [show flatState j (lastAlnum acc) (c :: rest) = c :: flatState j true rest by
        simp [flatState, hc]]
      rw [List.append_assoc]
      rfl
    · rw [Bool.not_eq_true] at hc
      by_cases hl : lastAlnum acc = true
      · rw [show flatcore j acc (c :: rest) = flatcore j (acc ++ [j]) rest by
          simp [flatcore, hc, hl]]
        rw [ih (acc ++ [j]), lastAlnum_concat, hj]
        rw [show flatState j (lastAlnum acc) (c :: rest) = j :: flatState j false rest by
          simp [flatState, hc, hl]]
        rw [List.append_assoc]
        rfl
      · rw [Bool.not_eq_true] at hl
        rw [show flatcore j acc (c :: rest) = flatcore j acc rest by
          simp [flatcore, hc, hl]]
        rw [ih acc, hl]
        rw [show flatState j false (c :: rest) = flatState j false rest by
          simp [flatState, hc]]

theorem flatten_eq_rstrip_flatState {j : Char} (hj : j.isAlphanum = false) (s : Str) :
    flatten s j = pyRstripChar j (flatState j false s) := by
  unfold flatten
  rw [flatcore_eq_flatState hj s []]
  rfl

theorem alnumRuns_eq_nil_iff (s : Str) :
    alnumRuns s = [] ↔ hasAlnum s = false := by
  induction s with
  | nil => simp [alnumRuns, hasAlnum]
  | cons c rest ih =>
    by_cases hc : c.isAlphanum = true
    · rw [show alnumRuns (c :: rest) =
        (c :: rest.takeWhile Char.isAlphanum) :: alnumRuns (rest.dropWhile Char.isAlphanum) by
          simp [alnumRuns, hc]]
      simp [hasAlnum, hc]
    · rw [Bool.not_eq_true] at hc
      rw [show alnumRuns (c :: rest) = alnumRuns rest by simp [alnumRuns, hc]]
      rw [ih]
      simp [hasAlnum, hc]

theorem runs_good_bounded :
    ∀ (n : Nat) (s : Str), s.length ≤ n →
      ∀ r ∈ alnumRuns s, r ≠ [] ∧ ∀ c ∈ r, c.isAlphanum = true := by
  intro n
  induction n with
  | zero =>
    intro s hs
    rw [List.length_eq_zero.1 (Nat.le_zero.1 hs)]
    simp [alnumRuns]
  | succ n ihn =>
    intro s hs
    cases s with
    | nil => simp [alnumRuns]
    | cons c rest =>
      by_cases hc : c.isAlphanum = true
      · rw [show alnumRuns (c :: rest) =
          (c :: rest.takeWhile Char.isAlphanum) :: alnumRuns (rest.dropWhile Char.isAlphanum) by
            simp [alnumRuns, hc]]
        intro r hr
        rcases List.mem_cons.1 hr with he | hm
        · subst he
          refine ⟨by simp, ?_⟩
          intro x hx
          rcases List.mem_cons.1 hx with hxe | hxm
          · rw [hxe]; exact hc
          · exact List.mem_takeWhile_imp hxm
        · have hlen : (rest.dropWhile Char.isAlphanum).length ≤ n := by
            have h1 := List.Sublist.length_le (List.dropWhile_sublist (l := rest) Char.isAlphanum)
            have h2 : (c :: rest).length ≤ n + 1 := hs
            simp at h2
            omega
          exact ihn (rest.dropWhile Char.isAlphanum) hlen r hm
      · rw [Bool.not_eq_true] at hc
        rw [show alnumRuns (c :: rest) = alnumRuns rest by simp [alnumRuns, hc]]
        have hlen : rest.length ≤ n := by
          have : (c :: rest).length ≤ n + 1 := hs
          simp at this
          omega
        exact ihn rest hlen

theorem runs_good {s : Str} :
    ∀ r ∈ alnumRuns s, r ≠ [] ∧ ∀ c ∈ r, c.isAlphanum = true :=
  runs_good_bounded s.length s (Nat.le_refl _)

theorem lastAlnum_of_all_alnum {l : Str} (hne : l ≠ [])
    (h : ∀ c ∈ l, c.isAlphanum = true) : lastAlnum l = true := by
  unfold lastAlnum
  rw [List.getLast?_eq_getLast l hne]
  exact h _ (List.getLast_mem hne)

theorem lastAlnum_of_all_not {l : Str}
    (h : ∀ c ∈ l, c.isAlphanum = false) : lastAlnum l = false := by
  unfold lastAlnum
  cases hg : l.getLast? with
  | none => rfl
  | some c =>
    have hne : l ≠ [] := by
      intro he
      rw [he] at hg
      simp at hg
    rw [List.getLast?_eq_getLast l hne] at hg
    rw [← Option.some_inj.1 hg]
    exact h _ (List.getLast_mem hne)

theorem lastAlnum_append_right (l : Str) {u : Str} (hu : u ≠ []) :
    lastAlnum (l ++ u) = lastAlnum u := by
  unfold lastAlnum
  rw [List.getLast?_append_of_ne_nil l hu]

theorem flatState_true_append {j : Char} {t : Str}
    (ht : ∀ c ∈ t, c.isAlphanum = true) (u : Str) :
    flatState j true (t ++ u) = t ++ flatState j true u := by
  induction t with
  | nil => simp
  | cons c t' ih =>
    have hc : c.isAlphanum = true := ht c (List.mem_cons_self c t')
    rw [List.cons_append,
      show flatState j true (c :: (t' ++ u)) = c :: flatState j true (t' ++ u) by
        simp [flatState, hc]]
    rw [ih (fun x hx => ht x (List.mem_cons_of_mem c hx))]
    rfl


theorem flatState_false_eq_bounded {j : Char} :
    ∀ (n : Nat) (s : Str), s.length ≤ n →
      flatState j false s = joinRuns j (alnumRuns s) ++
        (if hasAlnum s && !lastAlnum s then [j] else []) := by
  intro n
  induction n with
  | zero =>
    intro s hs
    rw [List.length_eq_zero.1 (Nat.le_zero.1 hs)]
    simp [flatState, alnumRuns, joinRuns, hasAlnum, lastAlnum]
  | succ n ihn =>
    intro s hs
    cases s with
    | nil => simp [flatState, alnumRuns, joinRuns, hasAlnum, lastAlnum]
    | cons c rest =>
      by_cases hc : c.isAlphanum = true
      · have hsplit : rest.takeWhile Char.isAlphanum ++ rest.dropWhile Char.isAlphanum = rest :=
          List.takeWhile_append_dropWhile Char.isAlphanum rest
        have htmem : ∀ x ∈ rest.takeWhile Char.isAlphanum, x.isAlphanum = true :=
          fun x hx => List.mem_takeWhile_imp hx
        have h1 : flatState j false (c :: rest) = c :: flatState j true rest := by
          simp [flatState, hc]
        have h2 : flatState j true rest =
            rest.takeWhile Char.isAlphanum ++
              flatState j true (rest.dropWhile Char.isAlphanum) := by
          conv_lhs => rw [← hsplit]
          exact flatState_true_append htmem _
        have hruns : alnumRuns (c :: rest) =
            (c :: rest.takeWhile Char.isAlphanum) ::
              alnumRuns (rest.dropWhile Char.isAlphanum) := by
          simp [alnumRuns, hc]
        have hhas : hasAlnum (c :: rest) = true := by simp [hasAlnum, hc]
        cases hu : rest.dropWhile Char.isAlphanum with
        | nil =>
          have hrest_eq : rest = rest.takeWhile Char.isAlphanum := by
            conv_lhs => rw [← hsplit, hu]
            rw [List.append_nil]
          have hallrest : ∀ x ∈ c :: rest, x.isAlphanum = true := by
            intro x hx
            rcases List.mem_cons.1 hx with he | hm
            · rw [he]; exact hc
            · rw [hrest_eq] at hm
              exact htmem x hm
          have hlast : lastAlnum (c :: rest) = true :=
            lastAlnum_of_all_alnum (by simp) hallrest
          rw [h1, h2, hu, hruns, hu, hhas, hlast]
          rw [show flatState j true ([] : Str) = [] from rfl, List.append_nil]
          rw [show alnumRuns ([] : Str) = [] by simp [alnumRuns]]
          rw [show joinRuns j [c :: List.takeWhile Char.isAlphanum rest] =
            c :: List.takeWhile Char.isAlphanum rest from rfl]
          simp
        | cons d u' =>
          have hd : d.isAlphanum = false := by
            apply dropWhile_head_not (p := Char.isAlphanum) (l := rest)
            rw [hu]
            rfl
          have h3 : flatState j true (rest.dropWhile Char.isAlphanum) =
              j :: flatState j false u' := by
            rw [hu]
            simp [flatState, hd]
          have hlen : u'.length ≤ n := by
            have e1 : (rest.takeWhile Char.isAlphanum).length +
                (rest.dropWhile Char.isAlphanum).length = rest.length := by
              rw [← List.length_append, hsplit]
            have e2 : (rest.dropWhile Char.isAlphanum).length = u'.length + 1 := by
              rw [hu]
              rfl
            have e3 : (c :: rest).length ≤ n + 1 := hs
            simp only [List.length_cons] at e3
            omega
          have hIH := ihn u' hlen
          have hruns_u : alnumRuns (rest.dropWhile Char.isAlphanum) = alnumRuns u' := by
            rw [hu]
            simp [alnumRuns, hd]
          have hshape : c :: rest = ((c :: rest.takeWhile Char.isAlphanum) ++ [d]) ++ u' := by
            conv_lhs => rw [← hsplit, hu]
            simp
          cases hru : alnumRuns u' with
          | nil =>
            have hnoal : hasAlnum u' = false := (alnumRuns_eq_nil_iff u').1 hru
            have hIH2 : flatState j false u' = [] := by
              rw [hIH, hru, hnoal]
              simp [joinRuns]
            have hlastc : lastAlnum (c :: rest) = false := by
              rw [hshape]
              cases hu'c : u' with
              | nil =>
                rw [List.append_nil, lastAlnum_concat]
                exact hd
              | cons z zs =>
                rw [lastAlnum_append_right _ (List.cons_ne_nil z zs)]
                apply lastAlnum_of_all_not
                intro x hx
                unfold hasAlnum at hnoal
                have := List.any_eq_false.1 hnoal x (by rw [hu'c]; exact hx)
                simpa using this
            rw [h1, h2, h3, hIH2, hruns, hruns_u, hru, hhas, hlastc]
            simp [joinRuns]
          | cons r rs =>
            have hu'ne : u' ≠ [] := by
              intro he
              rw [he] at hru
              simp [alnumRuns] at hru
            have hal : hasAlnum u' = true := by
              by_cases hb : hasAlnum u' = true
              · exact hb
              · exfalso
                rw [Bool.not_eq_true] at hb
                rw [(alnumRuns_eq_nil_iff u').2 hb] at hru
                exact List.noConfusion hru
            have hlastc : lastAlnum (c :: rest) = lastAlnum u' := by
              rw [hshape]
              exact lastAlnum_append_right _ hu'ne
            rw [h1, h2, h3, hIH, hruns, hruns_u, hru, hhas, hlastc, hal]
            simp [joinRuns, List.append_assoc]
      · rw [Bool.not_eq_true] at hc
        cases hrest : rest with
        | nil =>
          simp [flatState, alnumRuns, hasAlnum, lastAlnum, joinRuns, hc]
        | cons d rest' =>
          have hlen : (d :: rest').length ≤ n := by
            rw [hrest] at hs
            simp only [List.length_cons] at hs ⊢
            omega
          have h1 : flatState j false (c :: d :: rest') = flatState j false (d :: rest') := by
            simp [flatState, hc]
          have hruns2 : alnumRuns (c :: d :: rest') = alnumRuns (d :: rest') := by
            simp [alnumRuns, hc]
          have hhas2 : hasAlnum (c :: d :: rest') = hasAlnum (d :: rest') := by
            simp [hasAlnum, hc]
          have hlast2 : lastAlnum (c :: d :: rest') = lastAlnum (d :: rest') := by
            unfold lastAlnum
            rw [List.getLast?_cons_cons]
          rw [h1, hruns2, hhas2, hlast2]
          exact ihn _ hlen

theorem flatState_false_eq {j : Char} (s : Str) :
    flatState j false s = joinRuns j (alnumRuns s) ++
      (if hasAlnum s && !lastAlnum s then [j] else []) :=
  flatState_false_eq_bounded s.length s (Nat.le_refl _)

theorem pyRstripChar_append_j (j : Char) (l : Str) :
    pyRstripChar j (l ++ [j]) = pyRstripChar j l := by
  unfold pyRstripChar
  rw [List.reverse_append]
  rw [show (([j] : Str).reverse = [j]) from rfl]
  rw [show ([j] : Str) ++ l.reverse = j :: l.reverse from rfl]
  rw [List.dropWhile_cons]
  simp

theorem pyRstripChar_eq_self {j : Char} {l : Str}
    (h : ∀ c : Char, l.getLast? = some c → ¬(c = j)) : pyRstripChar j l = l := by
  unfold pyRstripChar
  cases hrev : l.reverse with
  | nil =>
    have : l = [] := by
      have := congrArg List.reverse hrev
      simpa using this
    rw [this]
    rfl
  | cons c t =>
    have hc : l.getLast? = some c := by
      rw [← List.head?_reverse, hrev]
      rfl
    rw [List.dropWhile_cons, if_neg (by simp [h c hc])]
    have := congrArg List.reverse hrev
    simpa using this.symm

theorem joinRuns_ne_nil {j : Char} {r0 : Str} (h : r0 ≠ []) (rs : List Str) :
    joinRuns j (r0 :: rs) ≠ [] := by
  cases rs with
  | nil => simpa [joinRuns] using h
  | cons r2 rs' =>
    rw [show joinRuns j (r0 :: r2 :: rs') = r0 ++ j :: joinRuns j (r2 :: rs') from rfl]
    exact List.append_ne_nil_of_left_ne_nil h _

theorem joinRuns_lastAlnum {j : Char} :
    ∀ (rs : List Str) (r0 : Str), r0 ≠ [] → (∀ c ∈ r0, c.isAlphanum = true) →
      (∀ r ∈ rs, r ≠ [] ∧ ∀ c ∈ r, c.isAlphanum = true) →
      lastAlnum (joinRuns j (r0 :: rs)) = true := by
  intro rs
  induction rs with
  | nil =>
    intro r0 hne hall _
    rw [show joinRuns j [r0] = r0 from rfl]
    exact lastAlnum_of_all_alnum hne hall
  | cons r2 rs' ih =>
    intro r0 hne hall hrs
    rw [show joinRuns j (r0 :: r2 :: rs') = r0 ++ j :: joinRuns j (r2 :: rs') from rfl]
    rw [lastAlnum_append_right _ (List.cons_ne_nil j _)]
    have hr2 := hrs r2 (List.mem_cons_self r2 rs')
    have hJne : joinRuns j (r2 :: rs') ≠ [] := joinRuns_ne_nil hr2.1 rs'
    rw [show (j :: joinRuns j (r2 :: rs') : Str) = [j] ++ joinRuns j (r2 :: rs') from rfl]
    rw [lastAlnum_append_right _ hJne]
    exact ih r2 hr2.1 hr2.2 (fun r hr => hrs r (List.mem_cons_of_mem _ hr))

theorem flatten_eq_joinRuns {j : Char} (hj : j.isAlphanum = false) (s : Str) :
    flatten s j = joinRuns j (alnumRuns s) := by
  rw [flatten_eq_rstrip_flatState hj s, flatState_false_eq s]
  cases hr : alnumRuns s with
  | nil =>
    have hno : hasAlnum s = false := (alnumRuns_eq_nil_iff s).1 hr
    rw [hno]
    simp [joinRuns, pyRstripChar]
  | cons r0 rs =>
    have hgood : ∀ r ∈ r0 :: rs, r ≠ [] ∧ ∀ c ∈ r, c.isAlphanum = true := by
      rw [← hr]
      exact runs_good
    have hr0 := hgood r0 (List.mem_cons_self r0 rs)
    have hlastan : lastAlnum (joinRuns j (r0 :: rs)) = true :=
      joinRuns_lastAlnum rs r0 hr0.1 hr0.2 (fun r hrr => hgood r (List.mem_cons_of_mem _ hrr))
    have hglne : ∀ c : Char, (joinRuns j (r0 :: rs)).getLast? = some c → ¬(c = j) := by
      intro c hgc hcj
      rw [hcj] at hgc
      simp only [lastAlnum, hgc] at hlastan
      rw [hj] at hlastan
      exact Bool.false_ne_true hlastan
    by_cases hcond : (hasAlnum s && !lastAlnum s) = true
    · rw [hcond]
      simp only [if_true]
      rw [pyRstripChar_append_j]
      exact pyRstripChar_eq_self hglne
    · rw [Bool.not_eq_true] at hcond
      rw [hcond]
      simp only [Bool.false_eq_true, if_false, List.append_nil]
      exact pyRstripChar_eq_self hglne

theorem joinRuns_head_not_j {j : Char} (hj : j.isAlphanum = false) {runs : List Str}
    (hgood : ∀ r ∈ runs, r ≠ [] ∧ ∀ c ∈ r, c.isAlphanum = true) :
    ∀ c : Char, (joinRuns j runs).head? = some c → ¬(c = j) := by
  intro c hc hcj
  cases runs with
  | nil => simp [joinRuns] at hc
  | cons r0 rs =>
    have hr0 := hgood r0 (List.mem_cons_self r0 rs)
    obtain ⟨x, r0', hx⟩ : ∃ x r0', r0 = x :: r0' := by
      cases r0 with
      | nil => exact absurd rfl hr0.1
      | cons x r0' => exact ⟨x, r0', rfl⟩
    have hxal : x.isAlphanum = true := hr0.2 x (by rw [hx]; exact List.mem_cons_self _ _)
    have hhead : (joinRuns j (r0 :: rs)).head? = some x := by
      cases rs with
      | nil => rw [show joinRuns j [r0] = r0 from rfl, hx]; rfl
      | cons r2 rs' =>
        rw [show joinRuns j (r0 :: r2 :: rs') = r0 ++ j :: joinRuns j (r2 :: rs') from rfl]
        rw [hx]
        rfl
    rw [hhead] at hc
    have : x = c := Option.some_inj.1 hc
    rw [← this] at hcj
    rw [hcj, hj] at hxal
    exact Bool.false_ne_true hxal

theorem noDouble_of_no_j {j : Char} :
    ∀ {l : Str}, (∀ c ∈ l, ¬(c = j)) → noDouble j l = true := by
  intro l
  induction l with
  | nil => intro _; rfl
  | cons a l' ih =>
    intro h
    cases l' with
    | nil => rfl
    | cons b rest =>
      rw [show noDouble j (a :: b :: rest) =
        ((!(decide (a = j) && decide (b = j))) && noDouble j (b :: rest)) from rfl]
      rw [ih (fun c hc => h c (List.mem_cons_of_mem a hc))]
      have ha : ¬(a = j) := h a (List.mem_cons_self a _)
      simp [ha]

theorem noDouble_cons_j {j : Char} {b : Str}
    (hb : noDouble j b = true) (hhead : ∀ c : Char, b.head? = some c → ¬(c = j)) :
    noDouble j (j :: b) = true := by
  cases b with
  | nil => rfl
  | cons z rest =>
    have hz : ¬(z = j) := hhead z rfl
    rw [show noDouble j (j :: z :: rest) =
      ((!(decide (j = j) && decide (z = j))) && noDouble j (z :: rest)) from rfl]
    rw [hb]
    simp [hz]

theorem noDouble_append_cons {j : Char} :
    ∀ {a : Str}, (∀ c ∈ a, ¬(c = j)) → ∀ {b : Str}, noDouble j (j :: b) = true →
      noDouble j (a ++ j :: b) = true := by
  intro a
  induction a with
  | nil => intro _ b hb; exact hb
  | cons x a' ih =>
    intro ha b hb
    have hx : ¬(x = j) := ha x (List.mem_cons_self x a')
    have htail : noDouble j (a' ++ j :: b) = true :=
      ih (fun c hc => ha c (List.mem_cons_of_mem x hc)) hb
    rw [List.cons_append]
    cases hsh : a' ++ j :: b with
    | nil => exact absurd hsh (by simp)
    | cons z rest =>
      rw [show noDouble j (x :: z :: rest) =
        ((!(decide (x = j) && decide (z = j))) && noDouble j (z :: rest)) from rfl]
      rw [← hsh, htail]
      simp [hx]

theorem joinRuns_noDouble {j : Char} (hj : j.isAlphanum = false) :
    ∀ (runs : List Str), (∀ r ∈ runs, r ≠ [] ∧ ∀ c ∈ r, c.isAlphanum = true) →
      noDouble j (joinRuns j runs) = true := by
  intro runs
  induction runs with
  | nil => intro _; rfl
  | cons r0 rs ih =>
    intro hgood
    have hr0 := hgood r0 (List.mem_cons_self r0 rs)
    have hr0nj : ∀ c ∈ r0, ¬(c = j) := by
      intro c hc hcj
      have := hr0.2 c hc
      rw [hcj, hj] at this
      exact Bool.false_ne_true this
    cases rs with
    | nil =>
      rw [show joinRuns j [r0] = r0 from rfl]
      exact noDouble_of_no_j hr0nj
    | cons r2 rs' =>
      rw [show joinRuns j (r0 :: r2 :: rs') = r0 ++ j :: joinRuns j (r2 :: rs') from rfl]
      apply noDouble_append_cons hr0nj
      apply noDouble_cons_j
      · exact ih (fun r hr => hgood r (List.mem_cons_of_mem _ hr))
      · exact joinRuns_head_not_j hj (fun r hr => hgood r (List.mem_cons_of_mem _ hr))

/-- Claim C4 counterexample: with the alphanumeric join character `'x'`,
`flatten "a..b" 'x'` is `"axxb"`, which contains two consecutive join
characters, so the claimed shape does not hold for every join character. -/
theorem c4_counterexample :
    flatten ("a..b").data 'x' = ("axxb").data ∧
    noDouble 'x' (flatten ("a..b").data 'x') = false := by
  decide

/-- Claim C4 (amended): for every input string and every non-alphanumeric
join character `j`, `flatten s j` is exactly the maximal alphanumeric runs
of `s` separated by one `j` each (leading and trailing non-alphanumeric
runs dropped); in particular it never begins or ends with `j` and contains
no two consecutive occurrences of `j`. -/
theorem c4_amended_flatten_shape (s : Str) (j : Char) (hj : j.isAlphanum = false) :
    flatten s j = joinRuns j (alnumRuns s) ∧
    (∀ c : Char, (flatten s j).head? = some c → ¬(c = j)) ∧
    (∀ c : Char, (flatten s j).getLast? = some c → ¬(c = j)) ∧
    noDouble j (flatten s j) = true := by
  have hmain := flatten_eq_joinRuns hj s
  refine ⟨hmain, ?_, ?_, ?_⟩
  · rw [hmain]
    exact joinRuns_head_not_j hj runs_good
  · rw [hmain]
    cases hr : alnumRuns s with
    | nil => intro c hc; simp [joinRuns] at hc
    | cons r0 rs =>
      intro c hc hcj
      have hgood : ∀ r ∈ r0 :: rs, r ≠ [] ∧ ∀ x ∈ r, x.isAlphanum = true := by
        rw [← hr]
        exact runs_good
      have hr0 := hgood r0 (List.mem_cons_self r0 rs)
      have hlastan : lastAlnum (joinRuns j (r0 :: rs)) = true :=
        joinRuns_lastAlnum rs r0 hr0.1 hr0.2
          (fun r hrr => hgood r (List.mem_cons_of_mem _ hrr))
      rw [hcj] at hc
      simp only [lastAlnum, hc] at hlastan
      rw [hj] at hlastan
      exact Bool.false_ne_true hlastan
  · rw [hmain]
    exact joinRuns_noDouble hj (alnumRuns s) runs_good

/-- Witness for the amended claim C4 at `s = "a..b "`, `j = '-'`. -/
theorem c4_amended_flatten_shape_witness :
    ('-').isAlphanum = false ∧
    (flatten ("a..b ").data '-' = joinRuns '-' (alnumRuns ("a..b ").data) ∧
     (∀ c : Char, (flatten ("a..b ").data '-').head? = some c → ¬(c = '-')) ∧
     (∀ c : Char, (flatten ("a..b ").data '-').getLast? = some c → ¬(c = '-')) ∧
     noDouble '-' (flatten ("a..b ").data '-') = true) :=
  ⟨by decide, c4_amended_flatten_shape ("a..b ").data '-' (by decide)⟩

/-! ### Output round-trip and entry conservation (claim C5) -/

theorem totalCount_cons (p : Str × List β) (m : List (Str × List β)) :
    totalCount (p :: m) = p.2.length + totalCount m := by
  simp [totalCount]

theorem tc_extendA (k : Str) (ts : List β) (m : List (Str × List β)) :
    totalCount (extendA k ts m) = totalCount m + ts.length := by
  induction m with
  | nil => simp [extendA, totalCount]
  | cons p rest ih =>
    by_cases hpk : p.1 = k
    · rw [show extendA k ts (p :: rest) = (p.1, p.2 ++ ts) :: rest by simp [extendA, hpk]]
      rw [totalCount_cons, totalCount_cons]
      simp
      omega
    · rw [show extendA k ts (p :: rest) = p :: extendA k ts rest by simp [extendA, hpk]]
      rw [totalCount_cons, totalCount_cons, ih]
      omega

theorem tc_reduceStep_fold :
    ∀ (cm acc : TextMap),
      totalCount (cm.foldl (fun rm p => extendA (clusterKey p.1) p.2 rm) acc) =
        totalCount acc + totalCount cm := by
  intro cm
  induction cm with
  | nil => intro acc; simp [totalCount]
  | cons p rest ih =>
    intro acc
    rw [List.foldl_cons, ih, tc_extendA, totalCount_cons]
    omega

theorem tc_reduceStep (cm : TextMap) : totalCount (reduceStep cm) = totalCount cm := by
  unfold reduceStep
  rw [tc_reduceStep_fold cm []]
  simp [totalCount]

theorem tc_setValA {k : Str} {m : List (Str × List β)} {cur : List β}
    (h : lookupA k m = some cur) (v : List β) :
    totalCount (setValA k v m) + cur.length = totalCount m + v.length := by
  induction m with
  | nil => simp [lookupA] at h
  | cons p rest ih =>
    by_cases hpk : p.1 = k
    · have hc : p.2 = cur := by simpa [lookupA, hpk] using h
      rw [show setValA k v (p :: rest) = (k, v) :: rest by simp [setValA, hpk]]
      rw [totalCount_cons, totalCount_cons, hc]
      rw [show ((k, v) : Str × List β).2 = v from rfl]
      omega
    · have h' : lookupA k rest = some cur := by simpa [lookupA, hpk] using h
      rw [show setValA k v (p :: rest) = p :: setValA k v rest by simp [setValA, hpk]]
      rw [totalCount_cons, totalCount_cons]
      have := ih h'
      omega

theorem tc_eraseA {k : Str} {m : List (Str × List β)} {cur : List β}
    (hnd : keysNodup m) (h : lookupA k m = some cur) :
    totalCount (eraseA k m) + cur.length = totalCount m := by
  induction m with
  | nil => simp [lookupA] at h
  | cons p rest ih =>
    by_cases hpk : p.1 = k
    · have hc : p.2 = cur := by simpa [lookupA, hpk] using h
      have hnc : containsKey k rest = false := by
        by_cases hb : containsKey k rest = true
        · exfalso
          apply keysNodup_head_not_mem hnd
          rw [hpk]
          exact (containsKey_iff_mem_keys k rest).1 hb
        · rw [Bool.not_eq_true] at hb
          exact hb
      rw [show eraseA k (p :: rest) = eraseA k rest by simp [eraseA, hpk]]
      rw [eraseA_of_not_contains hnc, totalCount_cons, hc]
      omega
    · have h' : lookupA k rest = some cur := by simpa [lookupA, hpk] using h
      rw [show eraseA k (p :: rest) = p :: eraseA k rest by simp [eraseA, hpk]]
      rw [totalCount_cons, totalCount_cons]
      have := ih (keysNodup_tail hnd) h'
      omega

theorem keys_setValA (k : Str) (v : α) (m : List (Str × α)) :
    (setValA k v m).map Prod.fst = m.map Prod.fst := by
  induction m with
  | nil => rfl
  | cons p rest ih =>
    by_cases hpk : p.1 = k
    · rw [show setValA k v (p :: rest) = (k, v) :: rest by simp [setValA, hpk]]
      rw [List.map_cons, List.map_cons]
      rw [show ((k, v) : Str × α).1 = p.1 from hpk.symm]
    · rw [show setValA k v (p :: rest) = p :: setValA k v rest by simp [setValA, hpk]]
      rw [List.map_cons, List.map_cons, ih]

theorem keysNodup_setValA {k : Str} {v : α} {m : List (Str × α)}
    (h : keysNodup m) : keysNodup (setValA k v m) := by
  unfold keysNodup
  rw [keys_setValA]
  exact h

theorem keys_eraseA_sublist (k : Str) (m : List (Str × α)) :
    ((eraseA k m).map Prod.fst).Sublist (m.map Prod.fst) := by
  induction m with
  | nil => simp [eraseA]
  | cons p rest ih =>
    by_cases hpk : p.1 = k
    · rw [show eraseA k (p :: rest) = eraseA k rest by simp [eraseA, hpk]]
      rw [List.map_cons]
      exact ih.cons p.1
    · rw [show eraseA k (p :: rest) = p :: eraseA k rest by simp [eraseA, hpk]]
      rw [List.map_cons, List.map_cons]
      exact ih.cons₂ p.1

theorem keysNodup_eraseA {k : Str} {m : List (Str × α)}
    (h : keysNodup m) : keysNodup (eraseA k m) :=
  (keys_eraseA_sublist k m).nodup h

theorem mem_keys_extendA {x k : Str} {ts : List β} {m : List (Str × List β)} :
    x ∈ (extendA k ts m).map Prod.fst ↔ x ∈ m.map Prod.fst ∨ x = k := by
  induction m with
  | nil => simp [extendA]
  | cons p rest ih =>
    by_cases hpk : p.1 = k
    · rw [show extendA k ts (p :: rest) = (p.1, p.2 ++ ts) :: rest by simp [extendA, hpk]]
      simp only [List.map_cons, List.mem_cons]
      constructor
      · intro h
        rcases h with he | hm
        · exact Or.inl (Or.inl he)
        · exact Or.inl (Or.inr hm)
      · intro h
        rcases h with (he | hm) | he2
        · exact Or.inl he
        · exact Or.inr hm
        · exact Or.inl (by rw [he2, ← hpk])
    · rw [show extendA k ts (p :: rest) = p :: extendA k ts rest by simp [extendA, hpk]]
      simp only [List.map_cons, List.mem_cons, ih]
      tauto

theorem keysNodup_extendA {k : Str} {ts : List β} {m : List (Str × List β)}
    (h : keysNodup m) : keysNodup (extendA k ts m) := by
  induction m with
  | nil => simp [extendA, keysNodup]
  | cons p rest ih =>
    by_cases hpk : p.1 = k
    · rw [show extendA k ts (p :: rest) = (p.1, p.2 ++ ts) :: rest by simp [extendA, hpk]]
      unfold keysNodup at h ⊢
      rw [List.map_cons] at h ⊢
      exact h
    · rw [show extendA k ts (p :: rest) = p :: extendA k ts rest by simp [extendA, hpk]]
      unfold keysNodup at h ⊢
      rw [List.map_cons] at h ⊢
      rw [List.nodup_cons] at h ⊢
      refine ⟨?_, ?_⟩
      · intro hmem
        rcases mem_keys_extendA.1 hmem with hm | he
        · exact h.1 hm
        · exact hpk he
      · exact (by
          have := ih (show keysNodup rest from h.2)
          exact this)

theorem keysNodup_reduceStep_fold :
    ∀ (cm acc : TextMap), keysNodup acc →
      keysNodup (cm.foldl (fun rm p => extendA (clusterKey p.1) p.2 rm) acc) := by
  intro cm
  induction cm with
  | nil => intro acc h; exact h
  | cons p rest ih =>
    intro acc h
    rw [List.foldl_cons]
    exact ih _ (keysNodup_extendA h)

theorem keysNodup_reduceStep (cm : TextMap) : keysNodup (reduceStep cm) := by
  unfold reduceStep
  exact keysNodup_reduceStep_fold cm [] (by simp [keysNodup])

theorem fp_count :
    ∀ (ps : List (Str × Str)) (m m' : TextMap), (∀ pr ∈ ps, pr.1 ≠ pr.2) →
      keysNodup m → ps.foldlM fpStep m = some m' →
      totalCount m' = totalCount m ∧ keysNodup m' := by
  intro ps
  induction ps with
  | nil =>
    intro m m' _ hnd hfold
    have : m = m' := Option.some_inj.1 hfold
    rw [← this]
    exact ⟨rfl, hnd⟩
  | cons pr rest ih =>
    intro m m' hne hnd hfold
    rw [List.foldlM_cons] at hfold
    cases hl1 : lookupA pr.1 m with
    | none => rw [show fpStep m pr = none by simp [fpStep, hl1]] at hfold; exact absurd hfold (by simp)
    | some cur =>
      cases hl2 : lookupA pr.2 m with
      | none => rw [show fpStep m pr = none by simp [fpStep, hl1, hl2]] at hfold; exact absurd hfold (by simp)
      | some plu =>
        rw [show fpStep m pr = some (eraseA pr.2 (setValA pr.1 (cur ++ plu) m)) by
          simp [fpStep, hl1, hl2]] at hfold
        have hprne : pr.1 ≠ pr.2 := hne pr (List.mem_cons_self pr rest)
        have hsv := tc_setValA hl1 (cur ++ plu)
        have hndsv : keysNodup (setValA pr.1 (cur ++ plu) m) := keysNodup_setValA hnd
        have hl2' : lookupA pr.2 (setValA pr.1 (cur ++ plu) m) = some plu := by
          rw [lookupA_setValA, if_neg hprne, hl2]
        have her := tc_eraseA hndsv hl2'
        have hnder : keysNodup (eraseA pr.2 (setValA pr.1 (cur ++ plu) m)) :=
          keysNodup_eraseA hndsv
        have hres := ih _ m' (fun q hq => hne q (List.mem_cons_of_mem _ hq)) hnder hfold
        refine ⟨?_, hres.2⟩
        rw [hres.1]
        simp only [List.length_append] at hsv
        omega

theorem mem_extendA_entries {e : Entry} {k : Str} {ts : List Entry} {m : TextMap}
    (h : memEntries e (extendA k ts m)) : memEntries e m ∨ e ∈ ts := by
  induction m with
  | nil =>
    obtain ⟨p, hp, he⟩ := h
    rw [show extendA k ts ([] : TextMap) = [(k, ts)] from rfl] at hp
    rcases List.mem_cons.1 hp with hpe | hm
    · right
      rw [hpe] at he
      exact he
    · simp at hm
  | cons q rest ih =>
    obtain ⟨p, hp, he⟩ := h
    by_cases hqk : q.1 = k
    · rw [show extendA k ts (q :: rest) = (q.1, q.2 ++ ts) :: rest by simp [extendA, hqk]] at hp
      rcases List.mem_cons.1 hp with hpe | hm
      · rw [hpe] at he
        rcases List.mem_append.1 he with h1 | h2
        · exact Or.inl ⟨q, List.mem_cons_self q rest, h1⟩
        · exact Or.inr h2
      · exact Or.inl ⟨p, List.mem_cons_of_mem _ hm, he⟩
    · rw [show extendA k ts (q :: rest) = q :: extendA k ts rest by simp [extendA, hqk]] at hp
      rcases List.mem_cons.1 hp with hpe | hm
      · rw [hpe] at he
        exact Or.inl ⟨q, List.mem_cons_self q rest, he⟩
      · rcases ih ⟨p, hm, he⟩ with h1 | h2
        · obtain ⟨p2, hp2, he2⟩ := h1
          exact Or.inl ⟨p2, List.mem_cons_of_mem _ hp2, he2⟩
        · exact Or.inr h2

theorem mem_setA_entries {e : Entry} {k : Str} {v : List Entry} {m : TextMap}
    (h : memEntries e (setA k v m)) : memEntries e m ∨ e ∈ v := by
  induction m with
  | nil =>
    obtain ⟨p, hp, he⟩ := h
    rw [show setA k v ([] : TextMap) = [(k, v)] from rfl] at hp
    rcases List.mem_cons.1 hp with hpe | hm
    · right
      rw [hpe] at he
      exact he
    · simp at hm
  | cons q rest ih =>
    obtain ⟨p, hp, he⟩ := h
    by_cases hqk : q.1 = k
    · rw [show setA k v (q :: rest) = (k, v) :: rest by simp [setA, hqk]] at hp
      rcases List.mem_cons.1 hp with hpe | hm
      · rw [hpe] at he
        exact Or.inr he
      · exact Or.inl ⟨p, List.mem_cons_of_mem _ hm, he⟩
    · rw [show setA k v (q :: rest) = q :: setA k v rest by simp [setA, hqk]] at hp
      rcases List.mem_cons.1 hp with hpe | hm
      · rw [hpe] at he
        exact Or.inl ⟨q, List.mem_cons_self q rest, he⟩
      · rcases ih ⟨p, hm, he⟩ with h1 | h2
        · obtain ⟨p2, hp2, he2⟩ := h1
          exact Or.inl ⟨p2, List.mem_cons_of_mem _ hp2, he2⟩
        · exact Or.inr h2

theorem mem_setValA_entries {e : Entry} {k : Str} {v : List Entry} {m : TextMap}
    (h : memEntries e (setValA k v m)) : memEntries e m ∨ e ∈ v := by
  induction m with
  | nil =>
    obtain ⟨p, hp, _⟩ := h
    simp [setValA] at hp
  | cons q rest ih =>
    obtain ⟨p, hp, he⟩ := h
    by_cases hqk : q.1 = k
    · rw [show setValA k v (q :: rest) = (k, v) :: rest by simp [setValA, hqk]] at hp
      rcases List.mem_cons.1 hp with hpe | hm
      · rw [hpe] at he
        exact Or.inr he
      · exact Or.inl ⟨p, List.mem_cons_of_mem _ hm, he⟩
    · rw [show setValA k v (q :: rest) = q :: setValA k v rest by simp [setValA, hqk]] at hp
      rcases List.mem_cons.1 hp with hpe | hm
      · rw [hpe] at he
        exact Or.inl ⟨q, List.mem_cons_self q rest, he⟩
      · rcases ih ⟨p, hm, he⟩ with h1 | h2
        · obtain ⟨p2, hp2, he2⟩ := h1
          exact Or.inl ⟨p2, List.mem_cons_of_mem _ hp2, he2⟩
        · exact Or.inr h2

theorem mem_eraseA_entries {e : Entry} {k : Str} {m : TextMap}
    (h : memEntries e (eraseA k m)) : memEntries e m := by
  induction m with
  | nil =>
    obtain ⟨p, hp, _⟩ := h
    simp [eraseA] at hp
  | cons q rest ih =>
    obtain ⟨p, hp, he⟩ := h
    by_cases hqk : q.1 = k
    · rw [show eraseA k (q :: rest) = eraseA k rest by simp [eraseA, hqk]] at hp
      obtain ⟨p2, hp2, he2⟩ := ih ⟨p, hp, he⟩
      exact ⟨p2, List.mem_cons_of_mem _ hp2, he2⟩
    · rw [show eraseA k (q :: rest) = q :: eraseA k rest by simp [eraseA, hqk]] at hp
      rcases List.mem_cons.1 hp with hpe | hm
      · rw [hpe] at he
        exact ⟨q, List.mem_cons_self q rest, he⟩
      · obtain ⟨p2, hp2, he2⟩ := ih ⟨p, hm, he⟩
        exact ⟨p2, List.mem_cons_of_mem _ hp2, he2⟩

theorem memEntries_cons_lift {e : Entry} {q : Str × List Entry} {m : TextMap}
    (h : memEntries e m) : memEntries e (q :: m) := by
  obtain ⟨p, hp, he⟩ := h
  exact ⟨p, List.mem_cons_of_mem _ hp, he⟩

theorem pf_entries (opts : Options) (path : Str) (e : Entry) :
    ∀ (units : List TUnit) (tm : TextMap),
      memEntries e (processfile opts path units tm) →
      memEntries e tm ∨ ∃ u ∈ units, e.unit = u ∧ e.path = path := by
  intro units
  induction units with
  | nil => intro tm h; exact Or.inl h
  | cons u us ih =>
    intro tm h
    by_cases h1 : (u.isheader || !u.istranslated) = true
    · have hstep : processfile opts path (u :: us) tm = processfile opts path us tm := by
        unfold processfile
        rw [List.foldl_cons]
        simp only [h1, if_true]
      rw [hstep] at h
      rcases ih tm h with hm | ⟨u', hu', he'⟩
      · exact Or.inl hm
      · exact Or.inr ⟨u', List.mem_cons_of_mem _ hu', he'⟩
    · by_cases h2 : u.hasplural = true
      · have hstep : processfile opts path (u :: us) tm = processfile opts path us tm := by
          unfold processfile
          rw [List.foldl_cons]
          simp only [h1, h2, if_true, if_false, Bool.false_eq_true]
        rw [hstep] at h
        rcases ih tm h with hm | ⟨u', hu', he'⟩
        · exact Or.inl hm
        · exact Or.inr ⟨u', List.mem_cons_of_mem _ hu', he'⟩
      · by_cases h3 : (!opts.invert) = true
        · have hstep : processfile opts path (u :: us) tm =
              processfile opts path us
                (extendA (clean opts u.source) [⟨clean opts u.target, u, path⟩] tm) := by
            unfold processfile
            rw [List.foldl_cons]
            simp only [h1, h2, h3, if_true, if_false, Bool.false_eq_true]
          rw [hstep] at h
          rcases ih _ h with hm | ⟨u', hu', he'⟩
          · rcases mem_extendA_entries hm with hmm | hee
            · exact Or.inl hmm
            · have hE : e = ⟨clean opts u.target, u, path⟩ := by simpa using hee
              exact Or.inr ⟨u, List.mem_cons_self u us, by rw [hE], by rw [hE]⟩
          · exact Or.inr ⟨u', List.mem_cons_of_mem _ hu', he'⟩
        · have hstep : processfile opts path (u :: us) tm =
              processfile opts path us
                (extendA (clean opts u.target) [⟨clean opts u.source, u, path⟩] tm) := by
            unfold processfile
            rw [List.foldl_cons]
            simp only [h1, h2, h3, if_true, if_false, Bool.false_eq_true]
          rw [hstep] at h
          rcases ih _ h with hm | ⟨u', hu', he'⟩
          · rcases mem_extendA_entries hm with hmm | hee
            · exact Or.inl hmm
            · have hE : e = ⟨clean opts u.source, u, path⟩ := by simpa using hee
              exact Or.inr ⟨u, List.mem_cons_self u us, by rw [hE], by rw [hE]⟩
          · exact Or.inr ⟨u', List.mem_cons_of_mem _ hu', he'⟩

theorem ia_entries_fold (opts : Options) (e : Entry) :
    ∀ (inputs : List (Str × List TUnit)) (tm : TextMap),
      memEntries e (inputs.foldl (fun tm pi => processfile opts pi.1 pi.2 tm) tm) →
      memEntries e tm ∨ ∃ pi ∈ inputs, ∃ u ∈ pi.2, e.unit = u ∧ e.path = pi.1 := by
  intro inputs
  induction inputs with
  | nil => intro tm h; exact Or.inl h
  | cons pi rest ih =>
    intro tm h
    rw [List.foldl_cons] at h
    rcases ih _ h with hm | ⟨pi', hpi', hrest⟩
    · rcases pf_entries opts pi.1 e pi.2 tm hm with hmm | ⟨u, hu, he⟩
      · exact Or.inl hmm
      · exact Or.inr ⟨pi, List.mem_cons_self pi rest, u, hu, he⟩
    · exact Or.inr ⟨pi', List.mem_cons_of_mem _ hpi', hrest⟩

theorem ia_entries {opts : Options} {e : Entry} {inputs : List (Str × List TUnit)}
    (h : memEntries e (ingestAll opts inputs)) :
    ∃ pi ∈ inputs, ∃ u ∈ pi.2, e.unit = u ∧ e.path = pi.1 := by
  unfold ingestAll at h
  rcases ia_entries_fold opts e inputs [] h with hm | hres
  · obtain ⟨p, hp, _⟩ := hm
    simp at hp
  · exact hres

theorem bc_entries_fold (e : Entry) :
    ∀ (tm cm : TextMap), memEntries e (tm.foldl bcStep cm) →
      memEntries e cm ∨ memEntries e tm := by
  intro tm
  induction tm with
  | nil => intro cm h; exact Or.inl h
  | cons p rest ih =>
    intro cm h
    rw [List.foldl_cons] at h
    rcases ih _ h with hm | hrest
    · unfold bcStep at hm
      by_cases hlen : (flatten p.1 ' ').length ≤ 1
      · rw [if_pos hlen] at hm
        exact Or.inl hm
      · rw [if_neg hlen] at hm
        by_cases hcond : 1 < p.2.length ∧ 1 < uniqueTargets p.2
        · rw [if_pos hcond] at hm
          rcases mem_setA_entries hm with hmm | hee
          · exact Or.inl hmm
          · exact Or.inr ⟨p, List.mem_cons_self p rest, hee⟩
        · rw [if_neg hcond] at hm
          exact Or.inl hm
    · exact Or.inr (memEntries_cons_lift hrest)

theorem bc_entries {e : Entry} {tm : TextMap}
    (h : memEntries e (buildconflictmap tm)) : memEntries e tm := by
  unfold buildconflictmap at h
  rcases bc_entries_fold e tm [] h with hm | hres
  · obtain ⟨p, hp, _⟩ := hm
    simp at hp
  · exact hres

theorem rs_entries_fold (e : Entry) :
    ∀ (cm acc : TextMap),
      memEntries e (cm.foldl (fun rm p => extendA (clusterKey p.1) p.2 rm) acc) →
      memEntries e acc ∨ memEntries e cm := by
  intro cm
  induction cm with
  | nil => intro acc h; exact Or.inl h
  | cons p rest ih =>
    intro acc h
    rw [List.foldl_cons] at h
    rcases ih _ h with hm | hrest
    · rcases mem_extendA_entries hm with hmm | hee
      · exact Or.inl hmm
      · exact Or.inr ⟨p, List.mem_cons_self p rest, hee⟩
    · exact Or.inr (memEntries_cons_lift hrest)

theorem rs_entries {e : Entry} {cm : TextMap}
    (h : memEntries e (reduceStep cm)) : memEntries e cm := by
  unfold reduceStep at h
  rcases rs_entries_fold e cm [] h with hm | hres
  · obtain ⟨p, hp, _⟩ := hm
    simp at hp
  · exact hres

theorem fp_entries (e : Entry) :
    ∀ (ps : List (Str × Str)) (m m' : TextMap),
      ps.foldlM fpStep m = some m' → memEntries e m' → memEntries e m := by
  intro ps
  induction ps with
  | nil =>
    intro m m' hfold h
    rw [Option.some_inj.1 hfold]
    exact h
  | cons pr rest ih =>
    intro m m' hfold h
    rw [List.foldlM_cons] at hfold
    cases hl1 : lookupA pr.1 m with
    | none => rw [show fpStep m pr = none by simp [fpStep, hl1]] at hfold; exact absurd hfold (by simp)
    | some cur =>
      cases hl2 : lookupA pr.2 m with
      | none => rw [show fpStep m pr = none by simp [fpStep, hl1, hl2]] at hfold; exact absurd hfold (by simp)
      | some plu =>
        rw [show fpStep m pr = some (eraseA pr.2 (setValA pr.1 (cur ++ plu) m)) by
          simp [fpStep, hl1, hl2]] at hfold
        have hm1 := ih _ m' hfold h
        have hm2 := mem_eraseA_entries hm1
        rcases mem_setValA_entries hm2 with hmm | hee
        · exact hmm
        · rcases List.mem_append.1 hee with h1 | h2
          · exact ⟨(pr.1, cur), lookupA_mem hl1, h1⟩
          · exact ⟨(pr.2, plu), lookupA_mem hl2, h2⟩

theorem out_units {rm : TextMap} {stem : Str} {us : List TUnit} {u : TUnit}
    (hout : (stem, us) ∈ outputsOf rm) (hu : u ∈ us) :
    ∃ ent : Entry, memEntries ent rm ∧ u = addComment ent.unit ent.path := by
  unfold outputsOf at hout
  rcases List.mem_map.1 hout with ⟨p, hp, heq⟩
  have hus : us = p.2.map (fun e => addComment e.unit e.path) := by
    have := congrArg Prod.snd heq
    simpa using this.symm
  rw [hus] at hu
  rcases List.mem_map.1 hu with ⟨ent, hent, hadd⟩
  exact ⟨ent, ⟨p, hp, hent⟩, hadd.symm⟩

/-- Claim C5: every unit in any produced output catalog traces back to a
unit of some input catalog and is written with the diagnostic comment
`"# (poconflicts) <path>"` naming the file it came from; and re-clustering
neither drops nor duplicates entries: the reduced map (before and, when
the folding pass succeeds, after plural folding) holds exactly as many
entries as the conflict map. -/
theorem c5_output_roundtrip (opts : Options) (inputs : List (Str × List TUnit))
    (rm' : TextMap) (stem : Str) (us : List TUnit) (u : TUnit)
    (hfold : foldPlurals (reduceStep (buildconflictmap (ingestAll opts inputs))) = some rm')
    (hout : (stem, us) ∈ outputsOf rm') (hu : u ∈ us) :
    totalCount (reduceStep (buildconflictmap (ingestAll opts inputs))) =
      totalCount (buildconflictmap (ingestAll opts inputs)) ∧
    totalCount rm' = totalCount (reduceStep (buildconflictmap (ingestAll opts inputs))) ∧
    ∃ pi ∈ inputs, ∃ orig ∈ pi.2, u = addComment orig pi.1 := by
  refine ⟨tc_reduceStep _, ?_, ?_⟩
  · unfold foldPlurals at hfold
    have hne : ∀ pr ∈ pluralPairs (reduceStep (buildconflictmap (ingestAll opts inputs))),
        pr.1 ≠ pr.2 := by
      intro pr h he
      have h2 := (pluralPairs_spec h).1
      rw [h2] at he
      have := congrArg List.length he
      simp at this
    exact (fp_count _ _ _ hne (keysNodup_reduceStep _) hfold).1
  · obtain ⟨ent, hmem', hadd⟩ := out_units hout hu
    unfold foldPlurals at hfold
    have hmem1 := fp_entries ent _ _ _ hfold hmem'
    have hmem2 := rs_entries hmem1
    have hmem3 := bc_entries hmem2
    obtain ⟨pi, hpi, orig, horig, hunit, hpath⟩ := ia_entries hmem3
    exact ⟨pi, hpi, orig, horig, by rw [hadd, hunit, hpath]⟩

/-- Witness for claim C5 at a concrete two-file run producing one output
catalog. -/
theorem c5_output_roundtrip_witness :
    (let u1 : TUnit := ⟨("ab").data, ("x").data, false, true, false, []⟩
     let u2 : TUnit := ⟨("ab").data, ("y").data, false, true, false, []⟩
     let inputs : List (Str × List TUnit) := [(("f1").data, [u1]), (("f2").data, [u2])]
     let rm' : TextMap := [(("ab").data,
       [⟨("x").data, u1, ("f1").data⟩, ⟨("y").data, u2, ("f2").data⟩])]
     foldPlurals (reduceStep (buildconflictmap (ingestAll opts0 inputs))) = some rm' ∧
     ((("ab").data, [addComment u1 ("f1").data, addComment u2 ("f2").data]) ∈ outputsOf rm') ∧
     addComment u1 ("f1").data ∈ [addComment u1 ("f1").data, addComment u2 ("f2").data] ∧
     (totalCount (reduceStep (buildconflictmap (ingestAll opts0 inputs))) =
        totalCount (buildconflictmap (ingestAll opts0 inputs)) ∧
      totalCount rm' = totalCount (reduceStep (buildconflictmap (ingestAll opts0 inputs))) ∧
      ∃ pi ∈ inputs, ∃ orig ∈ pi.2,
        addComment u1 ("f1").data = addComment orig pi.1)) :=
  ⟨by decide, by decide, by decide,
    c5_output_roundtrip opts0
      [(("f1").data, [⟨("ab").data, ("x").data, false, true, false, []⟩]),
       (("f2").data, [⟨("ab").data, ("y").data, false, true, false, []⟩])]
      [(("ab").data,
        [⟨("x").data, ⟨("ab").data, ("x").data, false, true, false, []⟩, ("f1").data⟩,
         ⟨("y").data, ⟨("ab").data, ("y").data, false, true, false, []⟩, ("f2").data⟩])]
      (("ab").data)
      [addComment ⟨("ab").data, ("x").data, false, true, false, []⟩ ("f1").data,
       addComment ⟨("ab").data, ("y").data, false, true, false, []⟩ ("f2").data]
      (addComment ⟨("ab").data, ("x").data, false, true, false, []⟩ ("f1").data)
      (by decide) (by decide) (by decide)⟩
